import Mathlib

/-!
Verification development for the Tachyon comic-archive server.

This file gives a shallow embedding, in Lean, of the security- and
cache-relevant core of the backend:

* the capability URL issuer/verifier and the session token codec
  (`src/backend/src/utils/auth.ts`),
* the directory-index scanner, natural sort and pagination
  (the scanner part of `src/backend/src/utils/auth.ts`),
* the comics HTTP router: auth middleware and the four comic routes
  (the Hono router file).

JavaScript strings are modelled as Lean `String` / `List Char`; byte
buffers as `List Nat` (each element < 256); epoch-second clocks as `Int`
parameters named `now`; the process-wide HMAC keyed by `SECRET_KEY` as an
abstract function parameter `hmac : String → String` (HMAC-SHA256 with a
fixed key is a deterministic function of the message; collision freedom
is taken as an explicit injectivity hypothesis where a claim needs it).
The filesystem is a finite tree value, and handlers are pure functions
of the request, the clock, the filesystem and the in-memory index state.
-/

namespace Tachyon

/-! ## JavaScript number-to-string and parseInt -/

/-- One decimal digit character. -/
def digitChar (n : Nat) : Char := Char.ofNat (48 + n)

/-- Accumulator loop producing the decimal digits of a natural number;
structural recursion on a fuel bound so that terms reduce. -/
def natToDecLoop : Nat → Nat → List Char → List Char
  | 0, n, acc => digitChar n :: acc
  | fuel + 1, n, acc =>
    if n < 10 then digitChar n :: acc
    else natToDecLoop fuel (n / 10) (digitChar (n % 10) :: acc)

/-- The loop with enough fuel for its argument. -/
def natDecAux (n : Nat) (acc : List Char) : List Char := natToDecLoop n n acc

/-- Decimal digit list of a natural number, most significant first. -/
def natDec (n : Nat) : List Char := natDecAux n []

theorem natToDecLoop_fuel : ∀ f1 f2 n acc, n < 10 ^ (f1 + 1) → n < 10 ^ (f2 + 1) →
    natToDecLoop f1 n acc = natToDecLoop f2 n acc := by
  intro f1
  induction f1 with
  | zero =>
    intro f2 n acc h1 h2
    cases f2 with
    | zero => rfl
    | succ f2 =>
      rw [natToDecLoop, natToDecLoop, if_pos (by simpa using h1)]
  | succ f1 ih =>
    intro f2 n acc h1 h2
    cases f2 with
    | zero =>
      rw [natToDecLoop, natToDecLoop, if_pos (by simpa using h2)]
    | succ f2 =>
      rw [natToDecLoop, natToDecLoop]
      by_cases hn : n < 10
      · rw [if_pos hn, if_pos hn]
      · rw [if_neg hn, if_neg hn]
        refine ih f2 (n / 10) _ ?_ ?_
        · have := Nat.pow_lt_pow_right (a := 10) (by omega) (Nat.lt_succ_self (f1 + 1))
          omega
        · have := Nat.pow_lt_pow_right (a := 10) (by omega) (Nat.lt_succ_self (f2 + 1))
          omega

theorem pow_ten_gt (n : Nat) : n < 10 ^ (n + 1) := by
  calc n < 2 ^ n := Nat.lt_two_pow n
  _ ≤ 10 ^ n := Nat.pow_le_pow_left (by omega) n
  _ < 10 ^ (n + 1) := Nat.pow_lt_pow_right (by omega) (Nat.lt_succ_self n)

theorem natToDecCore_unfold (n : Nat) (acc : List Char) :
    natDecAux n acc =
      if n < 10 then digitChar n :: acc
      else natDecAux (n / 10) (digitChar (n % 10) :: acc) := by
  rw [natDecAux, natDecAux, natToDecLoop_fuel n (n + 1) n acc (pow_ten_gt n)
    (lt_trans (pow_ten_gt n) (Nat.pow_lt_pow_right (by omega) (by omega))), natToDecLoop]
  by_cases hn : n < 10
  · rw [if_pos hn, if_pos hn]
  · rw [if_neg hn, if_neg hn]
    refine natToDecLoop_fuel n (n / 10) (n / 10) _ ?_ (pow_ten_gt (n / 10))
    have := pow_ten_gt n
    have h2 : 10 ^ (n / 10 + 1) ≤ 10 ^ (n + 1) := Nat.pow_le_pow_right (by omega) (by omega)
    omega

/-- Decimal rendering of an integer, as JavaScript template interpolation
of a number produces it. -/
def numStr (i : Int) : String :=
  if i < 0 then String.mk ('-' :: natDec (-i).toNat) else String.mk (natDec i.toNat)

/-- Numeric value of a digit list. -/
def decVal (l : List Char) : Nat := l.foldl (fun a c => a * 10 + (c.toNat - 48)) 0

theorem natToDecCore_eq (n : Nat) : ∀ acc, natDecAux n acc = natDec n ++ acc := by
  induction n using Nat.strong_induction_on with
  | _ n ih =>
    intro acc
    rw [natDec, natToDecCore_unfold n acc, natToDecCore_unfold n []]
    by_cases h : n < 10
    · rw [if_pos h, if_pos h]; rfl
    · rw [if_neg h, if_neg h,
        ih (n / 10) (Nat.div_lt_self (by omega) (by omega)),
        ih (n / 10) (Nat.div_lt_self (by omega) (by omega))]
      simp

theorem natDec_succ (n : Nat) (h : ¬ n < 10) :
    natDec n = natDec (n / 10) ++ [digitChar (n % 10)] := by
  rw [natDec, natToDecCore_unfold, if_neg h, natToDecCore_eq]

theorem toNat_digitChar (n : Nat) (h : n < 10) : (digitChar n).toNat = 48 + n := by
  interval_cases n <;> rfl

theorem isDigit_digitChar (n : Nat) (h : n < 10) : (digitChar n).isDigit = true := by
  interval_cases n <;> rfl

theorem decVal_append_digit (l : List Char) (c : Char) :
    decVal (l ++ [c]) = decVal l * 10 + (c.toNat - 48) := by
  simp [decVal, List.foldl_append]

theorem decVal_natDec (n : Nat) : decVal (natDec n) = n := by
  induction n using Nat.strong_induction_on with
  | _ n ih =>
    by_cases h : n < 10
    · rw [natDec, natToDecCore_unfold, if_pos h]
      simp [decVal, toNat_digitChar n h]
    · rw [natDec_succ n h, decVal_append_digit,
        ih (n / 10) (Nat.div_lt_self (by omega) (by omega)),
        toNat_digitChar (n % 10) (by omega)]
      omega

theorem natDec_ne_nil (n : Nat) : natDec n ≠ [] := by
  by_cases h : n < 10
  · rw [natDec, natToDecCore_unfold, if_pos h]; simp
  · rw [natDec_succ n h]; simp

theorem natDec_all_digits (n : Nat) : ∀ c ∈ natDec n, c.isDigit = true := by
  induction n using Nat.strong_induction_on with
  | _ n ih =>
    by_cases h : n < 10
    · rw [natDec, natToDecCore_unfold, if_pos h]
      intro c hc
      simp at hc
      subst hc
      exact isDigit_digitChar n h
    · rw [natDec_succ n h]
      intro c hc
      rcases List.mem_append.mp hc with h1 | h2
      · exact ih (n / 10) (Nat.div_lt_self (by omega) (by omega)) c h1
      · simp at h2
        subst h2
        exact isDigit_digitChar (n % 10) (by omega)

/-- Whitespace as skipped by JavaScript parseInt. -/
def isWs (c : Char) : Bool := c = ' ' || c = '\t' || c = '\n' || c = '\r'

/-- Maximal leading run of decimal digits, as a number; `none` when there is
no leading digit (parseInt NaN). -/
def parseDigitsPre (l : List Char) : Option Nat :=
  let ds := l.takeWhile Char.isDigit
  if ds.isEmpty then none else some (decVal ds)

/-- Sign handling of parseInt after whitespace skipping. -/
def parseSigned (c : Char) (rest : List Char) : Option Int :=
  if c = '-' then (parseDigitsPre rest).map (fun n => -(n : Int))
  else if c = '+' then (parseDigitsPre rest).map (fun n => (n : Int))
  else (parseDigitsPre (c :: rest)).map (fun n => (n : Int))

/-- Model of JavaScript parseInt(s, 10): skip whitespace, optional sign,
then the maximal run of decimal digits; NaN (`none`) when no digit follows. -/
def parseIntJs (s : String) : Option Int :=
  match s.data.dropWhile isWs with
  | [] => none
  | c :: rest => parseSigned c rest

theorem isWs_of_digit (c : Char) (h : c.isDigit = true) : isWs c = false := by
  have h48 : 48 ≤ c.toNat := by
    simp [Char.isDigit, decide_eq_true_eq] at h
    exact_mod_cast h.1
  simp only [isWs, Bool.or_eq_false_iff, decide_eq_false_iff_not]
  refine ⟨⟨⟨?_, ?_⟩, ?_⟩, ?_⟩ <;> (rintro rfl; simp at h48)

theorem takeWhile_all (p : Char → Bool) (l : List Char) (h : ∀ c ∈ l, p c = true) :
    l.takeWhile p = l := by
  induction l with
  | nil => rfl
  | cons a t ih =>
    rw [List.takeWhile_cons, h a (by simp), ih (fun c hc => h c (by simp [hc]))]
    simp

theorem parseDigitsPre_natDec (n : Nat) : parseDigitsPre (natDec n) = some n := by
  rw [parseDigitsPre]
  have hall := takeWhile_all Char.isDigit (natDec n) (natDec_all_digits n)
  simp only [hall]
  rw [if_neg (by simpa [List.isEmpty_iff] using natDec_ne_nil n)]
  rw [decVal_natDec]

theorem dropWhile_ws_natDec (n : Nat) : (natDec n).dropWhile isWs = natDec n := by
  rcases hne : natDec n with _ | ⟨c, cs⟩
  · exact absurd hne (natDec_ne_nil n)
  · have hc : c.isDigit = true := by
      refine natDec_all_digits n c ?_
      rw [hne]; simp
    rw [List.dropWhile_cons, isWs_of_digit c hc]
    simp

theorem head_natDec_not_sign (n : Nat) (c : Char) (cs : List Char)
    (h : natDec n = c :: cs) : c ≠ '-' ∧ c ≠ '+' := by
  have hc : c.isDigit = true := by
    refine natDec_all_digits n c ?_
    rw [h]; simp
  constructor <;> (rintro rfl; simp [Char.isDigit] at hc)

/-- parseInt round trip on rendered integers. -/
theorem parseIntJs_numStr (i : Int) : parseIntJs (numStr i) = some i := by
  by_cases hi : i < 0
  · rw [numStr, if_pos hi, parseIntJs]
    have hscrut : (String.mk ('-' :: natDec (-i).toNat)).data.dropWhile isWs
        = '-' :: natDec (-i).toNat := by
      show List.dropWhile isWs ('-' :: natDec (-i).toNat) = _
      rw [List.dropWhile_cons]
      simp [isWs]
    rw [hscrut]
    show parseSigned '-' (natDec (-i).toNat) = some i
    rw [parseSigned, if_pos rfl, parseDigitsPre_natDec]
    simp
    omega
  · rw [numStr, if_neg hi, parseIntJs]
    have hscrut : (String.mk (natDec i.toNat)).data.dropWhile isWs = natDec i.toNat := by
      show List.dropWhile isWs (natDec i.toNat) = _
      exact dropWhile_ws_natDec i.toNat
    rw [hscrut]
    rcases hne : natDec i.toNat with _ | ⟨c, cs⟩
    · exact absurd hne (natDec_ne_nil i.toNat)
    · show parseSigned c cs = some i
      have hsig := head_natDec_not_sign i.toNat c cs hne
      rw [parseSigned, if_neg hsig.1, if_neg hsig.2, ← hne, parseDigitsPre_natDec]
      simp
      omega

theorem colon_notin_natDec (n : Nat) : ':' ∉ natDec n := by
  intro hmem
  have := natDec_all_digits n ':' hmem
  simp [Char.isDigit] at this

theorem colon_notin_numStr (i : Int) : ':' ∉ (numStr i).data := by
  rw [numStr]
  by_cases hi : i < 0
  · rw [if_pos hi]
    show ':' ∉ '-' :: natDec (-i).toNat
    intro h
    rcases List.mem_cons.mp h with h | h
    · exact absurd h (by decide)
    · exact colon_notin_natDec _ h
  · rw [if_neg hi]
    show ':' ∉ natDec i.toNat
    exact colon_notin_natDec _

/-! ## base64url (no padding), as Buffer toString base64url / from base64url -/

/-- Character for a six-bit value in the base64url alphabet. -/
def sixToChar (n : Nat) : Char :=
  if n < 26 then Char.ofNat (65 + n)
  else if n < 52 then Char.ofNat (97 + (n - 26))
  else if n < 62 then Char.ofNat (48 + (n - 52))
  else if n = 62 then '-' else '_'

/-- Six-bit value of a base64url character; `none` for characters outside
the alphabet (Node silently skips those when decoding). -/
def charToSix (c : Char) : Option Nat :=
  if 65 ≤ c.toNat ∧ c.toNat ≤ 90 then some (c.toNat - 65)
  else if 97 ≤ c.toNat ∧ c.toNat ≤ 122 then some (26 + (c.toNat - 97))
  else if 48 ≤ c.toNat ∧ c.toNat ≤ 57 then some (52 + (c.toNat - 48))
  else if c = '-' then some 62
  else if c = '_' then some 63
  else none

theorem charToSix_sixToChar : ∀ n, n < 64 → charToSix (sixToChar n) = some n := by decide

theorem sixToChar_ne_dot : ∀ n, n < 64 → sixToChar n ≠ '.' := by decide

/-- base64url encoding of a byte list, without padding. -/
def base64urlEncode : List Nat → List Char
  | [] => []
  | [b0] => [sixToChar (b0 / 4), sixToChar (b0 % 4 * 16)]
  | [b0, b1] => [sixToChar (b0 / 4), sixToChar (b0 % 4 * 16 + b1 / 16), sixToChar (b1 % 16 * 4)]
  | b0 :: b1 :: b2 :: rest =>
      sixToChar (b0 / 4) :: sixToChar (b0 % 4 * 16 + b1 / 16) ::
      sixToChar (b1 % 16 * 4 + b2 / 64) :: sixToChar (b2 % 64) :: base64urlEncode rest

/-- Bytes from a list of six-bit groups; trailing bits that do not fill a
byte are dropped, as Node does. -/
def b64Group : List Nat → List Nat
  | [] => []
  | [_] => []
  | [c0, c1] => [c0 * 4 + c1 / 16]
  | [c0, c1, c2] => [c0 * 4 + c1 / 16, c1 % 16 * 16 + c2 / 4]
  | c0 :: c1 :: c2 :: c3 :: rest =>
      (c0 * 4 + c1 / 16) :: (c1 % 16 * 16 + c2 / 4) :: (c2 % 4 * 64 + c3) :: b64Group rest

/-- Lenient base64url decoding: characters outside the alphabet are skipped. -/
def base64urlDecodeLenient (l : List Char) : List Nat := b64Group (l.filterMap charToSix)

theorem filterMap_cons_some {α β : Type} (f : α → Option β) (a : α) (l : List α) (b : β)
    (h : f a = some b) : List.filterMap f (a :: l) = b :: List.filterMap f l := by
  simp [List.filterMap_cons, h]

theorem b64_roundtrip : ∀ bs : List Nat, (∀ b ∈ bs, b < 256) →
    base64urlDecodeLenient (base64urlEncode bs) = bs
  | [] => fun _ => by rfl
  | [b0] => fun h => by
    have h0 : b0 < 256 := h b0 (by simp)
    show b64Group (List.filterMap charToSix [sixToChar (b0 / 4), sixToChar (b0 % 4 * 16)]) = [b0]
    rw [filterMap_cons_some _ _ _ _ (charToSix_sixToChar _ (by omega)),
      filterMap_cons_some _ _ _ _ (charToSix_sixToChar _ (by omega)), List.filterMap_nil]
    show [b0 / 4 * 4 + b0 % 4 * 16 / 16] = [b0]
    simp only [List.cons.injEq, and_true]
    omega
  | [b0, b1] => fun h => by
    have h0 : b0 < 256 := h b0 (by simp)
    have h1 : b1 < 256 := h b1 (by simp)
    show b64Group (List.filterMap charToSix
      [sixToChar (b0 / 4), sixToChar (b0 % 4 * 16 + b1 / 16), sixToChar (b1 % 16 * 4)]) = [b0, b1]
    rw [filterMap_cons_some _ _ _ _ (charToSix_sixToChar _ (by omega)),
      filterMap_cons_some _ _ _ _ (charToSix_sixToChar _ (by omega)),
      filterMap_cons_some _ _ _ _ (charToSix_sixToChar _ (by omega)), List.filterMap_nil]
    show [b0 / 4 * 4 + (b0 % 4 * 16 + b1 / 16) / 16,
          (b0 % 4 * 16 + b1 / 16) % 16 * 16 + b1 % 16 * 4 / 4] = [b0, b1]
    simp only [List.cons.injEq, and_true]
    omega
  | [b0, b1, b2] => fun h => by
    have h0 : b0 < 256 := h b0 (by simp)
    have h1 : b1 < 256 := h b1 (by simp)
    have h2 : b2 < 256 := h b2 (by simp)
    show b64Group (List.filterMap charToSix
      (sixToChar (b0 / 4) :: sixToChar (b0 % 4 * 16 + b1 / 16) ::
       sixToChar (b1 % 16 * 4 + b2 / 64) :: sixToChar (b2 % 64) :: base64urlEncode [])) =
      [b0, b1, b2]
    rw [filterMap_cons_some _ _ _ _ (charToSix_sixToChar _ (by omega)),
      filterMap_cons_some _ _ _ _ (charToSix_sixToChar _ (by omega)),
      filterMap_cons_some _ _ _ _ (charToSix_sixToChar _ (by omega)),
      filterMap_cons_some _ _ _ _ (charToSix_sixToChar _ (by omega))]
    show b64Group [b0 / 4, b0 % 4 * 16 + b1 / 16, b1 % 16 * 4 + b2 / 64, b2 % 64] = [b0, b1, b2]
    show [b0 / 4 * 4 + (b0 % 4 * 16 + b1 / 16) / 16,
          (b0 % 4 * 16 + b1 / 16) % 16 * 16 + (b1 % 16 * 4 + b2 / 64) / 4,
          (b1 % 16 * 4 + b2 / 64) % 4 * 64 + b2 % 64] = [b0, b1, b2]
    simp only [List.cons.injEq, and_true]
    omega
  | b0 :: b1 :: b2 :: b3 :: rest => fun h => by
    have h0 : b0 < 256 := h b0 (by simp)
    have h1 : b1 < 256 := h b1 (by simp)
    have h2 : b2 < 256 := h b2 (by simp)
    have ih := b64_roundtrip (b3 :: rest) (fun b hb => h b (by simp at hb ⊢; tauto))
    show b64Group (List.filterMap charToSix
      (sixToChar (b0 / 4) :: sixToChar (b0 % 4 * 16 + b1 / 16) ::
       sixToChar (b1 % 16 * 4 + b2 / 64) :: sixToChar (b2 % 64) ::
       base64urlEncode (b3 :: rest))) = b0 :: b1 :: b2 :: b3 :: rest
    rw [filterMap_cons_some _ _ _ _ (charToSix_sixToChar _ (by omega)),
      filterMap_cons_some _ _ _ _ (charToSix_sixToChar _ (by omega)),
      filterMap_cons_some _ _ _ _ (charToSix_sixToChar _ (by omega)),
      filterMap_cons_some _ _ _ _ (charToSix_sixToChar _ (by omega))]
    have hstep : b64Group (b0 / 4 :: (b0 % 4 * 16 + b1 / 16) :: (b1 % 16 * 4 + b2 / 64) ::
        b2 % 64 :: List.filterMap charToSix (base64urlEncode (b3 :: rest))) =
        (b0 / 4 * 4 + (b0 % 4 * 16 + b1 / 16) / 16) ::
        ((b0 % 4 * 16 + b1 / 16) % 16 * 16 + (b1 % 16 * 4 + b2 / 64) / 4) ::
        ((b1 % 16 * 4 + b2 / 64) % 4 * 64 + b2 % 64) ::
        b64Group (List.filterMap charToSix (base64urlEncode (b3 :: rest))) := by
      rw [b64Group]
    rw [hstep]
    have htail : b64Group (List.filterMap charToSix (base64urlEncode (b3 :: rest))) =
        b3 :: rest := ih
    rw [htail]
    simp only [List.cons.injEq, and_true]
    refine ⟨by omega, by omega, by omega⟩

theorem base64urlEncode_mem_lt_64 : ∀ bs : List Nat, (∀ b ∈ bs, b < 256) →
    ∀ c ∈ base64urlEncode bs, ∃ n, n < 64 ∧ c = sixToChar n
  | [] => by simp [base64urlEncode]
  | [b0] => fun h c hc => by
    have h0 : b0 < 256 := h b0 (by simp)
    simp only [base64urlEncode, List.mem_cons, List.not_mem_nil, or_false] at hc
    rcases hc with rfl | rfl
    · exact ⟨b0 / 4, by omega, rfl⟩
    · exact ⟨b0 % 4 * 16, by omega, rfl⟩
  | [b0, b1] => fun h c hc => by
    have h0 : b0 < 256 := h b0 (by simp)
    have h1 : b1 < 256 := h b1 (by simp)
    simp only [base64urlEncode, List.mem_cons, List.not_mem_nil, or_false] at hc
    rcases hc with rfl | rfl | rfl
    · exact ⟨b0 / 4, by omega, rfl⟩
    · exact ⟨b0 % 4 * 16 + b1 / 16, by omega, rfl⟩
    · exact ⟨b1 % 16 * 4, by omega, rfl⟩
  | [b0, b1, b2] => fun h c hc => by
    have h0 : b0 < 256 := h b0 (by simp)
    have h1 : b1 < 256 := h b1 (by simp)
    have h2 : b2 < 256 := h b2 (by simp)
    simp only [base64urlEncode, List.mem_cons, List.not_mem_nil, or_false] at hc
    rcases hc with rfl | rfl | rfl | rfl
    · exact ⟨b0 / 4, by omega, rfl⟩
    · exact ⟨b0 % 4 * 16 + b1 / 16, by omega, rfl⟩
    · exact ⟨b1 % 16 * 4 + b2 / 64, by omega, rfl⟩
    · exact ⟨b2 % 64, by omega, rfl⟩
  | b0 :: b1 :: b2 :: b3 :: rest => fun h c hc => by
    have h0 : b0 < 256 := h b0 (by simp)
    have h1 : b1 < 256 := h b1 (by simp)
    have h2 : b2 < 256 := h b2 (by simp)
    have hc2 : c = sixToChar (b0 / 4) ∨ c = sixToChar (b0 % 4 * 16 + b1 / 16) ∨
        c = sixToChar (b1 % 16 * 4 + b2 / 64) ∨ c = sixToChar (b2 % 64) ∨
        c ∈ base64urlEncode (b3 :: rest) := by
      have huf : base64urlEncode (b0 :: b1 :: b2 :: b3 :: rest) =
          sixToChar (b0 / 4) :: sixToChar (b0 % 4 * 16 + b1 / 16) ::
          sixToChar (b1 % 16 * 4 + b2 / 64) :: sixToChar (b2 % 64) ::
          base64urlEncode (b3 :: rest) := by rw [base64urlEncode]
      rw [huf] at hc
      simpa using hc
    rcases hc2 with rfl | rfl | rfl | rfl | hc2
    · exact ⟨b0 / 4, by omega, rfl⟩
    · exact ⟨b0 % 4 * 16 + b1 / 16, by omega, rfl⟩
    · exact ⟨b1 % 16 * 4 + b2 / 64, by omega, rfl⟩
    · exact ⟨b2 % 64, by omega, rfl⟩
    · exact base64urlEncode_mem_lt_64 (b3 :: rest) (fun b hb => h b (by simp at hb ⊢; tauto)) c hc2

theorem base64urlEncode_ne_dot (bs : List Nat) (h : ∀ b ∈ bs, b < 256) :
    ∀ c ∈ base64urlEncode bs, c ≠ '.' := by
  intro c hc
  obtain ⟨n, hn, rfl⟩ := base64urlEncode_mem_lt_64 bs h c hc
  exact sixToChar_ne_dot n hn

/-! ## UTF-8, as Buffer.from(s, utf-8) / buf.toString(utf-8) -/

/-- Unicode scalar values (what Lean `Char` carries). -/
def validScalar (n : Nat) : Prop := n < 0xD800 ∨ (0xDFFF < n ∧ n < 0x110000)

/-- UTF-8 bytes of one scalar value. -/
def utf8EncodeChar (c : Nat) : List Nat :=
  if c < 0x80 then [c]
  else if c < 0x800 then [0xC0 + c / 64, 0x80 + c % 64]
  else if c < 0x10000 then [0xE0 + c / 4096, 0x80 + c / 64 % 64, 0x80 + c % 64]
  else [0xF0 + c / 262144, 0x80 + c / 4096 % 64, 0x80 + c / 64 % 64, 0x80 + c % 64]

/-- UTF-8 encoding of a character list. -/
def utf8Encode : List Char → List Nat
  | [] => []
  | c :: rest => utf8EncodeChar c.toNat ++ utf8Encode rest

/-- U+FFFD, emitted by lenient decoders on malformed input. -/
def replChar : Char := Char.ofNat 0xFFFD

/-- Decode step for a two-byte lead: consume one continuation byte. -/
def utf8Need1 (b0 : Nat) : List Nat → Char × List Nat
  | b1 :: rest2 =>
    if 0x80 ≤ b1 ∧ b1 < 0xC0 then
      if 0x80 ≤ (b0 - 0xC0) * 64 + (b1 - 0x80) then
        (Char.ofNat ((b0 - 0xC0) * 64 + (b1 - 0x80)), rest2)
      else (replChar, rest2)
    else (replChar, b1 :: rest2)
  | [] => (replChar, [])

/-- Decode step for a three-byte lead: consume two continuation bytes. -/
def utf8Need2 (b0 : Nat) : List Nat → Char × List Nat
  | b1 :: b2 :: rest3 =>
    if (0x80 ≤ b1 ∧ b1 < 0xC0) ∧ (0x80 ≤ b2 ∧ b2 < 0xC0) then
      if 0x800 ≤ (b0 - 0xE0) * 4096 + (b1 - 0x80) * 64 + (b2 - 0x80) ∧
          ¬ (0xD800 ≤ (b0 - 0xE0) * 4096 + (b1 - 0x80) * 64 + (b2 - 0x80) ∧
             (b0 - 0xE0) * 4096 + (b1 - 0x80) * 64 + (b2 - 0x80) ≤ 0xDFFF) then
        (Char.ofNat ((b0 - 0xE0) * 4096 + (b1 - 0x80) * 64 + (b2 - 0x80)), rest3)
      else (replChar, rest3)
    else (replChar, b1 :: b2 :: rest3)
  | [_] => (replChar, [])
  | [] => (replChar, [])

/-- Decode step for a four-byte lead: consume three continuation bytes. -/
def utf8Need3 (b0 : Nat) : List Nat → Char × List Nat
  | b1 :: b2 :: b3 :: rest4 =>
    if (0x80 ≤ b1 ∧ b1 < 0xC0) ∧ (0x80 ≤ b2 ∧ b2 < 0xC0) ∧ (0x80 ≤ b3 ∧ b3 < 0xC0) then
      if 0x10000 ≤ (b0 - 0xF0) * 262144 + (b1 - 0x80) * 4096 + (b2 - 0x80) * 64 + (b3 - 0x80) ∧
          (b0 - 0xF0) * 262144 + (b1 - 0x80) * 4096 + (b2 - 0x80) * 64 + (b3 - 0x80) <
            0x110000 then
        (Char.ofNat ((b0 - 0xF0) * 262144 + (b1 - 0x80) * 4096 + (b2 - 0x80) * 64 + (b3 - 0x80)),
          rest4)
      else (replChar, rest4)
    else (replChar, b1 :: b2 :: b3 :: rest4)
  | [_, _] => (replChar, [])
  | [_] => (replChar, [])
  | [] => (replChar, [])

/-- One decoding step: produce one character (possibly a replacement) and
the remaining bytes. -/
def utf8Step (b0 : Nat) (rest : List Nat) : Char × List Nat :=
  if b0 < 0x80 then (Char.ofNat b0, rest)
  else if b0 < 0xC0 then (replChar, rest)
  else if b0 < 0xE0 then utf8Need1 b0 rest
  else if b0 < 0xF0 then utf8Need2 b0 rest
  else if b0 < 0xF8 then utf8Need3 b0 rest
  else (replChar, rest)

theorem utf8Need1_len (b0 : Nat) (l : List Nat) : (utf8Need1 b0 l).2.length ≤ l.length := by
  match l with
  | [] => simp [utf8Need1]
  | b1 :: rest2 =>
    rw [utf8Need1]
    split
    · split <;> simp
    · simp

theorem utf8Need2_len (b0 : Nat) (l : List Nat) : (utf8Need2 b0 l).2.length ≤ l.length := by
  match l with
  | [] => simp [utf8Need2]
  | [b1] => simp [utf8Need2]
  | b1 :: b2 :: rest3 =>
    rw [utf8Need2]
    split
    · split <;> simp <;> omega
    · simp

theorem utf8Need3_len (b0 : Nat) (l : List Nat) : (utf8Need3 b0 l).2.length ≤ l.length := by
  match l with
  | [] => simp [utf8Need3]
  | [b1] => simp [utf8Need3]
  | [b1, b2] => simp [utf8Need3]
  | b1 :: b2 :: b3 :: rest4 =>
    rw [utf8Need3]
    split
    · split <;> simp <;> omega
    · simp

theorem utf8Step_len (b0 : Nat) (rest : List Nat) :
    (utf8Step b0 rest).2.length ≤ rest.length := by
  rw [utf8Step]
  split
  · simp
  · split
    · simp
    · split
      · exact utf8Need1_len b0 rest
      · split
        · exact utf8Need2_len b0 rest
        · split
          · exact utf8Need3_len b0 rest
          · simp

/-- Decoding loop with a fuel bound (structural, so that terms reduce);
each step consumes at least the lead byte. -/
def utf8DecodeLoop : Nat → List Nat → List Char
  | 0, _ => []
  | _ + 1, [] => []
  | fuel + 1, b0 :: rest => (utf8Step b0 rest).1 :: utf8DecodeLoop fuel (utf8Step b0 rest).2

/-- Lenient UTF-8 decoding with replacement characters on malformed
sequences, modelling buf.toString(utf-8). -/
def utf8DecodeLenient (l : List Nat) : List Char := utf8DecodeLoop l.length l

theorem utf8DecodeLoop_fuel : ∀ f1 f2 (l : List Nat), l.length ≤ f1 → l.length ≤ f2 →
    utf8DecodeLoop f1 l = utf8DecodeLoop f2 l := by
  intro f1
  induction f1 with
  | zero =>
    intro f2 l h1 h2
    have hl : l = [] := List.length_eq_zero.mp (by omega)
    subst hl
    cases f2 <;> rfl
  | succ f1 ih =>
    intro f2 l h1 h2
    cases l with
    | nil => cases f2 <;> rfl
    | cons b0 rest =>
      cases f2 with
      | zero => simp at h2
      | succ f2 =>
        rw [utf8DecodeLoop, utf8DecodeLoop]
        congr 1
        have hs := utf8Step_len b0 rest
        simp only [List.length_cons] at h1 h2
        exact ih f2 _ (by omega) (by omega)

theorem utf8DecodeLenient_cons (b0 : Nat) (rest : List Nat) :
    utf8DecodeLenient (b0 :: rest) =
      (utf8Step b0 rest).1 :: utf8DecodeLenient (utf8Step b0 rest).2 := by
  rw [utf8DecodeLenient, utf8DecodeLenient]
  show utf8DecodeLoop (rest.length + 1) (b0 :: rest) = _
  rw [utf8DecodeLoop]
  congr 1
  exact utf8DecodeLoop_fuel rest.length (utf8Step b0 rest).2.length _
    (utf8Step_len b0 rest) le_rfl

theorem utf8Step_encodeChar (n : Nat) (hv : validScalar n) (rest : List Nat) :
    ∃ b0 brest, utf8EncodeChar n = b0 :: brest ∧
      utf8Step b0 (brest ++ rest) = (Char.ofNat n, rest) := by
  rw [utf8EncodeChar]
  by_cases h1 : n < 0x80
  · refine ⟨n, [], by rw [if_pos h1], ?_⟩
    rw [utf8Step, if_pos h1]
    rfl
  · by_cases h2 : n < 0x800
    · refine ⟨0xC0 + n / 64, [0x80 + n % 64], by rw [if_neg h1, if_pos h2], ?_⟩
      rw [utf8Step, if_neg (by omega), if_neg (by omega), if_pos (by omega)]
      show utf8Need1 (0xC0 + n / 64) ((0x80 + n % 64) :: rest) = _
      rw [utf8Need1, if_pos (by omega), if_pos (by omega)]
      have harg : (0xC0 + n / 64 - 0xC0) * 64 + (0x80 + n % 64 - 0x80) = n := by omega
      rw [harg]
    · by_cases h3 : n < 0x10000
      · refine ⟨0xE0 + n / 4096, [0x80 + n / 64 % 64, 0x80 + n % 64],
          by rw [if_neg h1, if_neg h2, if_pos h3], ?_⟩
        rw [utf8Step, if_neg (by omega), if_neg (by omega), if_neg (by omega),
          if_pos (by omega)]
        show utf8Need2 (0xE0 + n / 4096) ((0x80 + n / 64 % 64) :: (0x80 + n % 64) :: rest) = _
        have harg : (0xE0 + n / 4096 - 0xE0) * 4096 + (0x80 + n / 64 % 64 - 0x80) * 64 +
            (0x80 + n % 64 - 0x80) = n := by omega
        have hs : ¬ (0xD800 ≤ n ∧ n ≤ 0xDFFF) := by
          rcases hv with h | h
          · omega
          · omega
        rw [utf8Need2, if_pos (by omega), harg, if_pos (by exact ⟨by omega, hs⟩)]
      · have h4 : n < 0x110000 := by
          rcases hv with h | h
          · omega
          · exact h.2
        refine ⟨0xF0 + n / 262144, [0x80 + n / 4096 % 64, 0x80 + n / 64 % 64, 0x80 + n % 64],
          by rw [if_neg h1, if_neg h2, if_neg h3], ?_⟩
        rw [utf8Step, if_neg (by omega), if_neg (by omega), if_neg (by omega),
          if_neg (by omega), if_pos (by omega)]
        show utf8Need3 (0xF0 + n / 262144)
          ((0x80 + n / 4096 % 64) :: (0x80 + n / 64 % 64) :: (0x80 + n % 64) :: rest) = _
        have harg : (0xF0 + n / 262144 - 0xF0) * 262144 + (0x80 + n / 4096 % 64 - 0x80) * 4096 +
            (0x80 + n / 64 % 64 - 0x80) * 64 + (0x80 + n % 64 - 0x80) = n := by omega
        rw [utf8Need3, if_pos (by omega), harg, if_pos (by exact ⟨by omega, h4⟩)]

theorem utf8EncodeChar_lt_256 (n : Nat) (hv : n < 0x110000) :
    ∀ b ∈ utf8EncodeChar n, b < 256 := by
  intro b hb
  rw [utf8EncodeChar] at hb
  split at hb
  · simp at hb; omega
  · split at hb
    · simp at hb; rcases hb with rfl | rfl <;> omega
    · split at hb
      · simp at hb; rcases hb with rfl | rfl | rfl <;> omega
      · simp at hb; rcases hb with rfl | rfl | rfl | rfl <;> omega

theorem utf8Encode_lt_256 : ∀ cs : List Char, ∀ b ∈ utf8Encode cs, b < 256
  | [] => by simp [utf8Encode]
  | c :: rest => by
    intro b hb
    rw [utf8Encode] at hb
    rcases List.mem_append.mp hb with hb | hb
    · have hlt : c.toNat < 0x110000 := by
        rcases c.valid with h | h
        · exact Nat.lt_trans h (by norm_num)
        · exact h.2
      exact utf8EncodeChar_lt_256 c.toNat hlt b hb
    · exact utf8Encode_lt_256 rest b hb

theorem utf8DecodeLenient_encodeChar (n : Nat) (hv : validScalar n) (rest : List Nat) :
    utf8DecodeLenient (utf8EncodeChar n ++ rest) = Char.ofNat n :: utf8DecodeLenient rest := by
  obtain ⟨b0, brest, henc, hstep⟩ := utf8Step_encodeChar n hv rest
  rw [henc]
  show utf8DecodeLenient (b0 :: (brest ++ rest)) = _
  rw [utf8DecodeLenient_cons, hstep]

theorem charToNat_validScalar (c : Char) : validScalar c.toNat := by
  rcases c.valid with h | h
  · exact Or.inl h
  · exact Or.inr h

theorem utf8_roundtrip : ∀ cs : List Char, utf8DecodeLenient (utf8Encode cs) = cs
  | [] => rfl
  | c :: rest => by
    rw [utf8Encode,
      utf8DecodeLenient_encodeChar c.toNat (charToNat_validScalar c) (utf8Encode rest),
      utf8_roundtrip rest, Char.ofNat_toNat]

/-! ## Comic identifiers: encodeId / decodeId (scanner module) -/

/-- Encode a folder path to a URL-safe base64 id. -/
def encodeId (path : String) : String := String.mk (base64urlEncode (utf8Encode path.data))

/-- Decode a base64 id back to a folder path. -/
def decodeId (id : String) : String :=
  String.mk (utf8DecodeLenient (base64urlDecodeLenient id.data))

theorem decodeId_encodeId (s : String) : decodeId (encodeId s) = s := by
  show String.mk (utf8DecodeLenient (base64urlDecodeLenient
    (base64urlEncode (utf8Encode s.data)))) = s
  rw [b64_roundtrip _ (utf8Encode_lt_256 s.data), utf8_roundtrip]

theorem encodeId_inj {a b : String} (h : encodeId a = encodeId b) : a = b := by
  have h2 := congrArg decodeId h
  rwa [decodeId_encodeId, decodeId_encodeId] at h2

theorem encodeId_data_ne_dot (s : String) : ∀ c ∈ (encodeId s).data, c ≠ '.' := by
  intro c hc
  exact base64urlEncode_ne_dot _ (utf8Encode_lt_256 s.data) c hc

/-! ## Signature engine and capability URLs (auth module) -/

/-- generateSignature: HMAC-SHA256 of the data under the process secret,
base64url-encoded. The keyed MAC is the abstract parameter hmac. -/
def generateSignature (hmac : String → String) (data : String) : String := hmac data

/-- verifySignature: recompute and compare (plain string equality in the
source). -/
def verifySignature (hmac : String → String) (data sig : String) : Bool :=
  generateSignature hmac data == sig

/-- The signed payload for a page capability. -/
def pageData (comicId : String) (page : Int) (expires : Int) : String :=
  comicId ++ ":" ++ numStr page ++ ":" ++ numStr expires

/-- The signed payload for a cover capability. -/
def coverData (comicId : String) (expires : Int) : String :=
  comicId ++ ":cover:" ++ numStr expires

/-- generateSignedUrl: expires = now + ttl, signature over comicId:page:expires. -/
def generateSignedUrl (hmac : String → String) (now : Int) (comicId : String) (page : Int)
    (ttl : Int) : String :=
  "/api/comics/" ++ comicId ++ "/pages/" ++ numStr page ++ "?expires=" ++ numStr (now + ttl) ++
    "&sig=" ++ generateSignature hmac (pageData comicId page (now + ttl))

/-- generateSignedCoverUrl: expires = now + ttl, signature over comicId:cover:expires. -/
def generateSignedCoverUrl (hmac : String → String) (now : Int) (comicId : String)
    (ttl : Int) : String :=
  "/api/comics/" ++ comicId ++ "/cover?expires=" ++ numStr (now + ttl) ++ "&sig=" ++
    generateSignature hmac (coverData comicId (now + ttl))

/-- verifySignedUrl: false on unparsable or past expires, else recompute
and compare the signature. -/
def verifySignedUrl (hmac : String → String) (now : Int) (comicId : String) (page : Int)
    (expires sig : String) : Bool :=
  match parseIntJs expires with
  | none => false
  | some e => if e < now then false else verifySignature hmac (pageData comicId page e) sig

/-- verifySignedCoverUrl: same scheme with the cover resource key. -/
def verifySignedCoverUrl (hmac : String → String) (now : Int) (comicId : String)
    (expires sig : String) : Bool :=
  match parseIntJs expires with
  | none => false
  | some e => if e < now then false else verifySignature hmac (coverData comicId e) sig

theorem numStr_inj {a b : Int} (h : numStr a = numStr b) : a = b := by
  have h2 := congrArg parseIntJs h
  rw [parseIntJs_numStr, parseIntJs_numStr] at h2
  exact Option.some.inj h2

theorem str_ext {a b : String} (h : a.data = b.data) : a = b := by
  cases a with
  | mk d1 =>
    cases b with
    | mk d2 =>
      have h2 : d1 = d2 := h
      rw [h2]

theorem numStr_chars (i : Int) : ∀ c ∈ (numStr i).data, c.isDigit = true ∨ c = '-' := by
  rw [numStr]
  by_cases hi : i < 0
  · rw [if_pos hi]
    intro c hc
    rcases List.mem_cons.mp hc with rfl | hc
    · exact Or.inr rfl
    · exact Or.inl (natDec_all_digits _ c hc)
  · rw [if_neg hi]
    intro c hc
    exact Or.inl (natDec_all_digits _ c hc)

/-- Splitting at the last separator: both tails are separator-free. -/
theorem append_sep_inj (sep : Char) :
    ∀ (a1 : List Char) {a2 b1 b2 : List Char}, sep ∉ b1 → sep ∉ b2 →
    a1 ++ sep :: b1 = a2 ++ sep :: b2 → a1 = a2 ∧ b1 = b2 := by
  intro a1
  induction a1 with
  | nil =>
    intro a2 b1 b2 hb1 hb2 h
    cases a2 with
    | nil => simpa using h
    | cons c t =>
      simp only [List.nil_append, List.cons_append, List.cons.injEq] at h
      refine absurd ?_ hb1
      rw [h.2]
      exact List.mem_append_right t (List.mem_cons_self sep b2)
  | cons c t ih =>
    intro a2 b1 b2 hb1 hb2 h
    cases a2 with
    | nil =>
      simp only [List.nil_append, List.cons_append, List.cons.injEq] at h
      refine absurd ?_ hb2
      rw [← h.2]
      exact List.mem_append_right t (List.mem_cons_self sep b1)
    | cons c2 t2 =>
      simp only [List.cons_append, List.cons.injEq] at h
      obtain ⟨rfl, h2⟩ := h
      obtain ⟨rfl, rfl⟩ := ih hb1 hb2 h2
      exact ⟨rfl, rfl⟩

theorem pageData_data (c : String) (p e : Int) :
    (pageData c p e).data = (c.data ++ ':' :: (numStr p).data) ++ ':' :: (numStr e).data := by
  simp [pageData, String.data_append]

theorem coverData_data (c : String) (e : Int) :
    (coverData c e).data = (c.data ++ ':' :: ['c', 'o', 'v', 'e', 'r']) ++
      ':' :: (numStr e).data := by
  have h : (":cover:" ++ numStr e).data = ':' :: ['c', 'o', 'v', 'e', 'r']
      ++ ':' :: (numStr e).data := by
    rw [String.data_append]
    rfl
  simp [coverData, String.data_append, h]

theorem pageData_inj {c1 c2 : String} {p1 p2 e1 e2 : Int}
    (h : pageData c1 p1 e1 = pageData c2 p2 e2) : c1 = c2 ∧ p1 = p2 ∧ e1 = e2 := by
  have hd := congrArg String.data h
  rw [pageData_data, pageData_data] at hd
  obtain ⟨h1, h2⟩ := append_sep_inj ':' _ (colon_notin_numStr e1) (colon_notin_numStr e2) hd
  obtain ⟨h3, h4⟩ := append_sep_inj ':' _ (colon_notin_numStr p1) (colon_notin_numStr p2) h1
  exact ⟨str_ext h3, numStr_inj (str_ext h4), numStr_inj (str_ext h2)⟩

theorem pageData_ne_coverData (c1 c2 : String) (p e1 e2 : Int) :
    pageData c1 p e1 ≠ coverData c2 e2 := by
  intro h
  have hd := congrArg String.data h
  rw [pageData_data, coverData_data] at hd
  obtain ⟨h1, _⟩ := append_sep_inj ':' _ (colon_notin_numStr e1) (colon_notin_numStr e2) hd
  obtain ⟨_, h4⟩ := append_sep_inj ':' _ (colon_notin_numStr p)
    (by intro hc; simp at hc) h1
  have := numStr_chars p 'c' (by rw [h4]; simp)
  rcases this with hdig | hdash
  · simp [Char.isDigit] at hdig
  · exact absurd hdash (by decide)

/-! ## Session tokens (auth module) -/

/-- The payload carried by a session token. -/
structure SessionData where
  userId : String
  email : Option String
  name : Option String
  avatar : Option String
  expiresAt : Int
deriving DecidableEq

/-- generateSessionToken: base64url of the serialized payload, a dot, and
the signature of the serialized payload. The JSON serializer of the
runtime is the abstract parameter enc. -/
def generateSessionToken (enc : SessionData → String) (hmac : String → String)
    (data : SessionData) : String :=
  String.mk (base64urlEncode (utf8Encode (enc data).data)) ++ "." ++
    generateSignature hmac (enc data)

/-- JavaScript split on a character. -/
def splitChar (sep : Char) : List Char → List (List Char)
  | [] => [[]]
  | c :: rest =>
    if c = sep then [] :: splitChar sep rest
    else
      match splitChar sep rest with
      | h :: t => (c :: h) :: t
      | [] => [[c]]

theorem splitChar_no_sep (sep : Char) :
    ∀ l : List Char, sep ∉ l → splitChar sep l = [l] := by
  intro l
  induction l with
  | nil => intro _; rfl
  | cons c rest ih =>
    intro h
    rw [splitChar, if_neg (by intro hc; exact h (hc ▸ List.mem_cons_self c rest)),
      ih (fun hm => h (List.mem_cons_of_mem c hm))]

theorem splitChar_append (sep : Char) (a b : List Char) (ha : sep ∉ a) :
    splitChar sep (a ++ sep :: b) = a :: splitChar sep b := by
  induction a with
  | nil => simp [splitChar]
  | cons c rest ih =>
    rw [List.cons_append, splitChar,
      if_neg (by intro hc; exact ha (hc ▸ List.mem_cons_self c rest)),
      ih (fun hm => ha (List.mem_cons_of_mem c hm))]

/-- verifySessionToken: split on the dot, fail closed on malformed
structure, signature mismatch, undecodable payload or past expiry. The
JSON parser of the runtime is the abstract parameter dec (JSON.parse
exceptions are its `none`). -/
def verifySessionToken (dec : String → Option SessionData) (hmac : String → String)
    (now : Int) (token : String) : Option SessionData :=
  match splitChar '.' token.data with
  | payloadB64 :: sig :: _ =>
    if payloadB64.isEmpty || sig.isEmpty then none
    else
      let payload := String.mk (utf8DecodeLenient (base64urlDecodeLenient payloadB64))
      if verifySignature hmac payload (String.mk sig) then
        match dec payload with
        | none => none
        | some d => if d.expiresAt < now then none else some d
      else none
  | _ => none

/-! ## Natural sort (scanner module)

localeCompare with numeric collation and base sensitivity: strings are
tokenized into numeric runs (compared by value) and single characters
(compared case-folded); token lists compare lexicographically. -/

/-- A collation token: a numeric run or a single (case-folded) character. -/
inductive NTok where
  | num : Nat → NTok
  | sym : Nat → NTok
deriving DecidableEq

/-- Three-way comparison on naturals. -/
def natCmp3 (a b : Nat) : Ordering := if a < b then .lt else if b < a then .gt else .eq

/-- Three-way comparison on tokens: numeric runs sort before characters. -/
def tokCmp : NTok → NTok → Ordering
  | .num a, .num b => natCmp3 a b
  | .num _, .sym _ => .lt
  | .sym _, .num _ => .gt
  | .sym a, .sym b => natCmp3 a b

/-- Lexicographic comparison of token lists. -/
def lexCmp : List NTok → List NTok → Ordering
  | [], [] => .eq
  | [], _ :: _ => .lt
  | _ :: _, [] => .gt
  | a :: as, b :: bs =>
    match tokCmp a b with
    | .eq => lexCmp as bs
    | o => o

theorem dropWhile_length_le (p : Char → Bool) (l : List Char) :
    (l.dropWhile p).length ≤ l.length := by
  induction l with
  | nil => simp
  | cons c rest ih =>
    rw [List.dropWhile_cons]
    split
    · simp only [List.length_cons]
      omega
    · simp

/-- Tokenizer loop with a fuel bound (structural, so that terms reduce). -/
def natKeyLoop : Nat → List Char → List NTok
  | 0, _ => []
  | _ + 1, [] => []
  | fuel + 1, c :: rest =>
    if c.isDigit then
      .num (decVal (c :: rest.takeWhile Char.isDigit)) ::
        natKeyLoop fuel (rest.dropWhile Char.isDigit)
    else .sym c.toLower.toNat :: natKeyLoop fuel rest

/-- Tokenizer: maximal digit runs become numeric tokens, other characters
case-folded single-character tokens. -/
def natKey (l : List Char) : List NTok := natKeyLoop l.length l

/-- The naturalSort comparator of the scanner. -/
def naturalSortCmp (a b : String) : Ordering := lexCmp (natKey a.data) (natKey b.data)

/-- naturalSort as a sort predicate: comparator result at most zero. -/
def naturalLe (a b : String) : Bool :=
  match naturalSortCmp a b with
  | .gt => false
  | _ => true

theorem natCmp3_lt_iff {a b : Nat} : natCmp3 a b = .lt ↔ a < b := by
  rw [natCmp3]
  by_cases h1 : a < b
  · rw [if_pos h1]; simp [h1]
  · rw [if_neg h1]
    by_cases h2 : b < a
    · rw [if_pos h2]; simp; omega
    · rw [if_neg h2]; simp; omega

theorem natCmp3_gt_iff {a b : Nat} : natCmp3 a b = .gt ↔ b < a := by
  rw [natCmp3]
  by_cases h1 : a < b
  · rw [if_pos h1]; simp; omega
  · rw [if_neg h1]
    by_cases h2 : b < a
    · rw [if_pos h2]; simp; omega
    · rw [if_neg h2]; simp; omega

theorem natCmp3_eq_iff {a b : Nat} : natCmp3 a b = .eq ↔ a = b := by
  rw [natCmp3]
  by_cases h1 : a < b
  · rw [if_pos h1]; simp; omega
  · rw [if_neg h1]
    by_cases h2 : b < a
    · rw [if_pos h2]; simp; omega
    · rw [if_neg h2]; simp; omega

theorem tokCmp_eq_iff {a b : NTok} : tokCmp a b = .eq ↔ a = b := by
  cases a <;> cases b <;> simp [tokCmp, natCmp3_eq_iff]

theorem tokCmp_gt_iff_lt {a b : NTok} : tokCmp a b = .gt ↔ tokCmp b a = .lt := by
  cases a <;> cases b <;> simp [tokCmp, natCmp3_gt_iff, natCmp3_lt_iff]

theorem tokCmp_lt_trans {a b c : NTok} (h1 : tokCmp a b = .lt) (h2 : tokCmp b c = .lt) :
    tokCmp a c = .lt := by
  cases a <;> cases b <;> cases c <;>
    simp_all [tokCmp, natCmp3_lt_iff] <;> omega

theorem lexCmp_gt_iff_lt : ∀ x y : List NTok, lexCmp x y = .gt ↔ lexCmp y x = .lt := by
  intro x
  induction x with
  | nil =>
    intro y
    cases y <;> simp [lexCmp]
  | cons a as ih =>
    intro y
    cases y with
    | nil => simp [lexCmp]
    | cons b bs =>
      rw [lexCmp, lexCmp]
      rcases htok : tokCmp a b with _ | _ | _
      · have hba : tokCmp b a = .gt := by
          rw [tokCmp_gt_iff_lt]; exact htok
        rw [hba]
        simp
      · have hab : a = b := tokCmp_eq_iff.mp htok
        subst hab
        rw [htok]
        exact ih bs
      · have hba : tokCmp b a = .lt := tokCmp_gt_iff_lt.mp htok
        rw [hba]
        simp

theorem lexCmp_cons_cons (a b : NTok) (as bs : List NTok) :
    lexCmp (a :: as) (b :: bs) =
      match tokCmp a b with
      | .eq => lexCmp as bs
      | o => o := rfl

theorem lexCmp_cons_lt {a b : NTok} {as bs : List NTok} (h : tokCmp a b = .lt) :
    lexCmp (a :: as) (b :: bs) = .lt := by
  rw [lexCmp_cons_cons, h]

theorem lexCmp_cons_eq {a b : NTok} {as bs : List NTok} (h : tokCmp a b = .eq) :
    lexCmp (a :: as) (b :: bs) = lexCmp as bs := by
  rw [lexCmp_cons_cons, h]

theorem lexCmp_cons_gt {a b : NTok} {as bs : List NTok} (h : tokCmp a b = .gt) :
    lexCmp (a :: as) (b :: bs) = .gt := by
  rw [lexCmp_cons_cons, h]

theorem lexCmp_le_trans : ∀ x y z : List NTok,
    lexCmp x y ≠ .gt → lexCmp y z ≠ .gt → lexCmp x z ≠ .gt := by
  intro x
  induction x with
  | nil =>
    intro y z _ _
    cases z <;> simp [lexCmp]
  | cons a as ih =>
    intro y z hxy hyz
    cases y with
    | nil => exact absurd rfl hxy
    | cons b bs =>
      cases z with
      | nil => exact absurd rfl hyz
      | cons c cs =>
        rcases hab : tokCmp a b with _ | _ | _
        · rcases hbc : tokCmp b c with _ | _ | _
          · rw [lexCmp_cons_lt (tokCmp_lt_trans hab hbc)]
            simp
          · have hbceq := tokCmp_eq_iff.mp hbc
            rw [lexCmp_cons_lt (hbceq ▸ hab)]
            simp
          · rw [lexCmp_cons_gt hbc] at hyz
            exact absurd rfl hyz
        · have habeq := tokCmp_eq_iff.mp hab
          subst habeq
          rw [lexCmp_cons_eq hab] at hxy
          rcases hbc : tokCmp a c with _ | _ | _
          · rw [lexCmp_cons_lt hbc]
            simp
          · rw [lexCmp_cons_eq hbc] at hyz ⊢
            exact ih bs cs hxy hyz
          · rw [lexCmp_cons_gt hbc] at hyz
            exact absurd rfl hyz
        · rw [lexCmp_cons_gt hab] at hxy
          exact absurd rfl hxy

theorem naturalLe_eq_false_iff {a b : String} :
    naturalLe a b = false ↔ naturalSortCmp a b = .gt := by
  rw [naturalLe]
  rcases h : naturalSortCmp a b with _ | _ | _ <;> simp

theorem naturalLe_total (a b : String) : (naturalLe a b || naturalLe b a) = true := by
  rcases hab : naturalLe a b with _ | _
  · have hgt : naturalSortCmp a b = .gt := naturalLe_eq_false_iff.mp hab
    have hlt : naturalSortCmp b a = .lt := by
      rw [naturalSortCmp] at hgt ⊢
      exact (lexCmp_gt_iff_lt _ _).mp hgt
    have : naturalLe b a = true := by
      rw [naturalLe, naturalSortCmp] at *
      rw [hlt]
    rw [this]
    simp
  · simp

theorem naturalLe_trans (a b c : String) (h1 : naturalLe a b = true)
    (h2 : naturalLe b c = true) : naturalLe a c = true := by
  have k1 : naturalSortCmp a b ≠ .gt := by
    intro hgt
    rw [naturalLe, hgt] at h1
    simp at h1
  have k2 : naturalSortCmp b c ≠ .gt := by
    intro hgt
    rw [naturalLe, hgt] at h2
    simp at h2
  have k3 : naturalSortCmp a c ≠ .gt :=
    lexCmp_le_trans (natKey a.data) (natKey b.data) (natKey c.data) k1 k2
  rw [naturalLe]
  rcases h : naturalSortCmp a c with _ | _ | _
  · rfl
  · rfl
  · exact absurd h k3

/-! ## A stable structural sort (model of Array.prototype.sort) -/

/-- Insert an element into a sorted list, after elements it does not
strictly precede. -/
def insertSorted {α : Type} (le : α → α → Bool) (a : α) : List α → List α
  | [] => [a]
  | b :: t => if le a b then a :: b :: t else b :: insertSorted le a t

/-- Insertion sort with a boolean comparator; stable and structurally
recursive. -/
def sortBy {α : Type} (le : α → α → Bool) : List α → List α
  | [] => []
  | a :: t => insertSorted le a (sortBy le t)

theorem length_insertSorted {α : Type} (le : α → α → Bool) (a : α) :
    ∀ l : List α, (insertSorted le a l).length = l.length + 1 := by
  intro l
  induction l with
  | nil => rfl
  | cons b t ih =>
    rw [insertSorted]
    split
    · simp
    · simp [ih]

theorem length_sortBy {α : Type} (le : α → α → Bool) :
    ∀ l : List α, (sortBy le l).length = l.length := by
  intro l
  induction l with
  | nil => rfl
  | cons a t ih =>
    rw [sortBy, length_insertSorted, ih]
    rfl

theorem mem_insertSorted {α : Type} {le : α → α → Bool} {a x : α} :
    ∀ {l : List α}, x ∈ insertSorted le a l ↔ x = a ∨ x ∈ l := by
  intro l
  induction l with
  | nil => simp [insertSorted]
  | cons b t ih =>
    rw [insertSorted]
    split
    · simp only [List.mem_cons]
    · simp only [List.mem_cons, ih]
      tauto

theorem pairwise_insertSorted {α : Type} {le : α → α → Bool}
    (htot : ∀ x y, (le x y || le y x) = true)
    (htrans : ∀ x y z, le x y = true → le y z = true → le x z = true)
    (a : α) : ∀ l : List α, l.Pairwise (fun x y => le x y = true) →
    (insertSorted le a l).Pairwise (fun x y => le x y = true) := by
  intro l
  induction l with
  | nil =>
    intro _
    simp [insertSorted]
  | cons b t ih =>
    intro h
    obtain ⟨hb, ht⟩ := List.pairwise_cons.mp h
    rw [insertSorted]
    by_cases hab : le a b = true
    · rw [if_pos hab]
      refine List.Pairwise.cons ?_ h
      intro x hx
      rcases List.mem_cons.mp hx with rfl | hxt
      · exact hab
      · exact htrans a b x hab (hb x hxt)
    · rw [if_neg hab]
      refine List.Pairwise.cons ?_ (ih ht)
      intro x hx
      rcases mem_insertSorted.mp hx with hxa | hxt
      · subst hxa
        rcases Bool.or_eq_true_iff.mp (htot x b) with h1 | h1
        · exact absurd h1 hab
        · exact h1
      · exact hb x hxt

theorem pairwise_sortBy {α : Type} {le : α → α → Bool}
    (htot : ∀ x y, (le x y || le y x) = true)
    (htrans : ∀ x y z, le x y = true → le y z = true → le x z = true) :
    ∀ l : List α, (sortBy le l).Pairwise (fun x y => le x y = true) := by
  intro l
  induction l with
  | nil => exact List.Pairwise.nil
  | cons a t ih => exact pairwise_insertSorted htot htrans a (sortBy le t) ih

/-! ## Filesystem model and the page resolver (scanner module) -/

/- A filesystem node: a file, or a directory with named children in
readdir order (a mutually inductive entry list, so that scans and
lookups are structurally recursive). -/
mutual
/-- A file, or a directory with named children in readdir order. -/
inductive FSTree where
  | file : FSTree
  | dir : FSEntries → FSTree
/-- The children of a directory, in readdir order. -/
inductive FSEntries where
  | nil : FSEntries
  | cons : String → FSTree → FSEntries → FSEntries
end

/-- The entry list of a directory as a Lean list. -/
def FSEntries.toList : FSEntries → List (String × FSTree)
  | .nil => []
  | .cons name t rest => (name, t) :: FSEntries.toList rest

/-- Build a directory entry list from a Lean list. -/
def FSEntries.ofList : List (String × FSTree) → FSEntries
  | [] => .nil
  | (name, t) :: rest => .cons name t (FSEntries.ofList rest)

/-- First entry with the given name (the find of the lookup). -/
def FSEntries.findName : FSEntries → String → Option FSTree
  | .nil, _ => none
  | .cons name t rest, seg => if name == seg then some t else FSEntries.findName rest seg

/-- A discovered image file. -/
structure ImgFile where
  filename : String
  relativePath : String
deriving DecidableEq

/-- An entry of the ordered page list. -/
structure PageInfo where
  index : Nat
  filename : String
  relativePath : String
deriving DecidableEq

/-- An entry of the directory index. -/
structure ComicInfo where
  id : String
  name : String
  path : String
  pageCount : Nat
  cover : String
deriving DecidableEq

/-- Node path.extname of a bare filename. -/
def extname (name : String) : String :=
  let rev := name.data.reverse
  let pre := rev.takeWhile (fun c => decide (c ≠ '.'))
  if pre.length = rev.length then ""
  else if pre.length + 1 = rev.length then ""
  else String.mk ('.' :: pre.reverse)

/-- JavaScript toLowerCase (ASCII range suffices for the extension list). -/
def toLowerStr (s : String) : String := String.mk (s.data.map Char.toLower)

/-- The image extension allow-list of the scanner. -/
def IMAGE_EXTENSIONS : List String := [".jpg", ".jpeg", ".png", ".gif", ".webp", ".avif", ".bmp"]

/-- isImage: lowercased extension in the allow-list. -/
def isImage (filename : String) : Bool := IMAGE_EXTENSIONS.contains (toLowerStr (extname filename))

/-- Relative-path join inside a comic folder. -/
def joinRel (cur name : String) : String := if cur = "" then name else cur ++ "/" ++ name

/- Walk of a directory in readdir order: directories descend in place,
image files are collected with their relative paths. -/
mutual
def scanEntryT (cur name : String) : FSTree → List ImgFile
  | FSTree.file => if isImage name then [⟨name, joinRel cur name⟩] else []
  | FSTree.dir es => scanEntriesE (joinRel cur name) es
def scanEntriesE (cur : String) : FSEntries → List ImgFile
  | FSEntries.nil => []
  | FSEntries.cons name t rest => scanEntryT cur name t ++ scanEntriesE cur rest
end

/-- scanImagesRecursive on a folder; unreadable paths (a file node) give
the empty list, as the caught readdir error does. -/
def scanImagesRecursive : FSTree → List ImgFile
  | .file => []
  | .dir es => scanEntriesE "" es

/-- getComicPages: recursive scan, natural sort by relative path, then
index assignment in sorted order. -/
def getComicPages (t : FSTree) : List PageInfo :=
  let images := scanImagesRecursive t
  let sorted := sortBy (fun a b => naturalLe a.relativePath b.relativePath) images
  sorted.enum.map (fun p => ⟨p.1, p.2.filename, p.2.relativePath⟩)

/-! ## Paths: join, resolve and the startsWith check of the router -/

/-- Split a string at slashes. -/
def splitSlash (s : String) : List String := (splitChar '/' s.data).map String.mk

/-- Normalization stack of path segments: empty and dot segments vanish,
dot-dot pops, as path.resolve does on an absolute path. -/
def normStack (segs : List String) : List String :=
  segs.foldl (fun acc seg =>
    if seg = "" ∨ seg = "." then acc
    else if seg = ".." then acc.dropLast
    else acc ++ [seg]) []

/-- Segments of resolve(abs). -/
def normSegs (s : String) : List String := normStack (splitSlash s)

/-- Segments of resolve(join(base, rel)) for an absolute base. -/
def normJoin (base rel : String) : List String := normStack (splitSlash base ++ splitSlash rel)

/-- Render absolute path segments back to a slash-separated string. -/
def renderAbs (segs : List String) : String := segs.foldl (fun acc seg => acc ++ "/" ++ seg) ""

/-- JavaScript String.prototype.startsWith. -/
def jsStartsWith (s pre : String) : Bool := pre.data.isPrefixOf s.data

/-- Substring search on character lists. -/
def containsSeq (sub : List Char) : List Char → Bool
  | [] => sub.isEmpty
  | c :: rest => sub.isPrefixOf (c :: rest) || containsSeq sub rest

/-- JavaScript String.prototype.includes. -/
def jsIncludes (s sub : String) : Bool := containsSeq sub.data s.data

/-- Resolve a path (list of segments) in the filesystem tree. -/
def lookupFS (t : FSTree) : List String → Option FSTree
  | [] => some t
  | seg :: rest =>
    match t with
    | .file => none
    | .dir es =>
      match es.findName seg with
      | some t2 => lookupFS t2 rest
      | none => none

/-- getComicPages against an on-disk path; a missing folder reads as
empty (the caught filesystem error). -/
def getComicPagesAt (fs : FSTree) (segs : List String) : List PageInfo :=
  match lookupFS fs segs with
  | some t => getComicPages t
  | none => []

/-! ## The directory index state machine (scanner module) -/

/-- JS Map get. -/
def jsMapGet (m : List (String × ComicInfo)) (k : String) : Option ComicInfo :=
  (m.find? (fun p => p.1 == k)).map (fun p => p.2)

/-- JS Map has. -/
def jsMapHas (m : List (String × ComicInfo)) (k : String) : Bool :=
  (m.find? (fun p => p.1 == k)).isSome

/-- JS Map set: replace in place, else append (insertion order). -/
def jsMapSet (m : List (String × ComicInfo)) (k : String) (v : ComicInfo) :
    List (String × ComicInfo) :=
  if m.any (fun p => p.1 == k) then m.map (fun p => if p.1 == k then (k, v) else p)
  else m ++ [(k, v)]

/-- JS Map delete. -/
def jsMapDelete (m : List (String × ComicInfo)) (k : String) : List (String × ComicInfo) :=
  m.filter (fun p => p.1 != k)

/-- JS Map values in insertion order. -/
def jsMapValues (m : List (String × ComicInfo)) : List ComicInfo := m.map (fun p => p.2)

/-- The two globals of the scanner: COMICS_MAP and COMICS_CACHE. -/
structure ScanState where
  map : List (String × ComicInfo)
  cache : List ComicInfo
deriving DecidableEq

/-- The sort applied by updateCacheArray (stable, as Array.sort is). -/
def sortComics (l : List ComicInfo) : List ComicInfo :=
  sortBy (fun a b => naturalLe a.name b.name) l

/-- updateCacheArray: rebuild the sorted cache from the map values. -/
def updateCacheArray (st : ScanState) : ScanState :=
  { st with cache := sortComics (jsMapValues st.map) }

/-- scanSingleComic: page scan of one folder; zero images give none. -/
def scanSingleComic (hmac : String → String) (now : Int) (fs : FSTree) (comicsDir : String)
    (folderName : String) : Option ComicInfo :=
  let folderPath := normJoin comicsDir folderName
  let pages := getComicPagesAt fs folderPath
  if pages.length > 0 then
    some { id := encodeId folderName, name := folderName, path := folderName,
           pageCount := pages.length,
           cover := generateSignedCoverUrl hmac now (encodeId folderName) 31536000 }
  else none

/-- One entry of the initial scan: only directories are considered. -/
def initStep (hmac : String → String) (now : Int) (fs : FSTree) (comicsDir : String)
    (m : List (String × ComicInfo)) (e : String × FSTree) : List (String × ComicInfo) :=
  match e.2 with
  | FSTree.dir _ =>
    match scanSingleComic hmac now fs comicsDir e.1 with
    | some comic => jsMapSet m comic.id comic
    | none => m
  | FSTree.file => m

/-- initScanner: full scan of the immediate subdirectories of the comics
root, then updateCacheArray; a failed root read leaves the state empty. -/
def initScanner (hmac : String → String) (now : Int) (fs : FSTree) (comicsDir : String) :
    ScanState :=
  match lookupFS fs (normSegs comicsDir) with
  | some (.dir entries) =>
      updateCacheArray
        { map := entries.toList.foldl (initStep hmac now fs comicsDir) [], cache := [] }
  | _ => { map := [], cache := [] }

/-- basename of the comics root, compared against by the addDir handler. -/
def basenameSeg (s : String) : String := (normSegs s).getLastD ""

/-- The addDir watcher event. -/
def applyAddDir (hmac : String → String) (now : Int) (fs : FSTree) (comicsDir : String)
    (st : ScanState) (folderName : String) : ScanState :=
  if folderName = basenameSeg comicsDir then st
  else
    match scanSingleComic hmac now fs comicsDir folderName with
    | some comic => updateCacheArray { st with map := jsMapSet st.map comic.id comic }
    | none => st

/-- The unlinkDir watcher event. -/
def applyUnlinkDir (st : ScanState) (folderName : String) : ScanState :=
  if jsMapHas st.map (encodeId folderName) then
    updateCacheArray { st with map := jsMapDelete st.map (encodeId folderName) }
  else st

/-- States reachable through the mutation entry points of the index. -/
inductive Reachable (hmac : String → String) (comicsDir : String) : ScanState → Prop where
  | init (now : Int) (fs : FSTree) :
      Reachable hmac comicsDir (initScanner hmac now fs comicsDir)
  | addDir (st : ScanState) (now : Int) (fs : FSTree) (name : String) :
      Reachable hmac comicsDir st →
      Reachable hmac comicsDir (applyAddDir hmac now fs comicsDir st name)
  | unlinkDir (st : ScanState) (name : String) :
      Reachable hmac comicsDir st →
      Reachable hmac comicsDir (applyUnlinkDir st name)

/-- getComics: paginated slice of the cache with the total count. -/
def getComics (st : ScanState) (page limit : Nat) : List ComicInfo × Nat :=
  ((st.cache.drop ((page - 1) * limit)).take limit, st.cache.length)

/-- getComic: map lookup by id. -/
def getComic (st : ScanState) (id : String) : Option ComicInfo := jsMapGet st.map id

theorem reachable_cache_sorted {hmac : String → String} {comicsDir : String} {st : ScanState}
    (h : Reachable hmac comicsDir st) : st.cache = sortComics (jsMapValues st.map) := by
  induction h with
  | init now fs =>
    rw [initScanner]
    split
    · rfl
    · rfl
  | addDir st now fs name _ ih =>
    rw [applyAddDir]
    split
    · exact ih
    · split
      · rfl
      · exact ih
  | unlinkDir st name _ ih =>
    rw [applyUnlinkDir]
    split
    · rfl
    · exact ih

/-! ## The comics router: middleware and handlers -/

/-- An HTTP response, as far as the claims need it: an error status with
its JSON message, a JSON body, or a streamed file identified by its
on-disk path. -/
inductive Resp where
  | err : Nat → String → Resp
  | comicJson : ComicInfo → Resp
  | listJson : Nat → List ComicInfo → Nat → Nat → Resp
  | pagesJson : String → String → Nat → List (Nat × String) → Resp
  | stream : String → Resp
deriving DecidableEq

/-- The authentication-relevant parts of a request: the session cookie
and the expires/sig query parameters (absent is `none`, JS falsy also
covers the empty string). -/
structure Req where
  cookie : Option String
  expires : Option String
  sig : Option String
deriving DecidableEq

/-- JavaScript truthiness of an optional string. -/
def optTruthy : Option String → Bool
  | some s => s != ""
  | none => false

/-- The session test both the middleware and the handlers perform:
a present, nonempty cookie that verifySessionToken accepts. -/
def sessionOk (dec : String → Option SessionData) (hmac : String → String) (now : Int)
    (cookie : Option String) : Bool :=
  match cookie with
  | some t => if t == "" then false else (verifySessionToken dec hmac now t).isSome
  | none => false

/-- The auth middleware on the comics router: fail closed without a
client id; pass on a valid session; else pass through to the handler
when the path looks like an image endpoint and both expires and sig are
present; else 401. -/
def middleware (clientId : String) (dec : String → Option SessionData)
    (hmac : String → String) (now : Int) (path : String) (req : Req) : Option Resp :=
  if clientId == "" then some (.err 500 "Server Configuration Error: Auth Missing")
  else if sessionOk dec hmac now req.cookie then none
  else if (jsIncludes path "/pages/" || jsIncludes path "/cover")
      && (optTruthy req.expires && optTruthy req.sig) then none
  else some (.err 401 "Unauthorized: Missing Session or Signature")

/-- A query parameter with its JS default (empty string is falsy). -/
def qOrDefault (q : Option String) (dflt : String) : String :=
  match q with
  | some s => if s == "" then dflt else s
  | none => dflt

/-- GET /comics handler: pagination over the cache. A NaN page or limit
collapses the slice to empty (Math.max(1, NaN) is NaN and slice treats
NaN bounds as 0), modelled by the fallback branch. -/
def listComicsHandler (st : ScanState) (pageQ limitQ : Option String) : Resp :=
  match parseIntJs (qOrDefault pageQ "1"), parseIntJs (qOrDefault limitQ "36") with
  | some p0, some l0 =>
    let page := max 1 p0
    let limit := max 1 l0
    let res := getComics st page.toNat limit.toNat
    .listJson res.2 res.1 page.toNat ((res.2 + limit.toNat - 1) / limit.toNat)
  | _, _ => .listJson st.cache.length [] 0 0

/-- GET /comics/:id handler: index lookup, no further auth check. -/
def comicByIdHandler (st : ScanState) (id : String) : Resp :=
  match getComic st id with
  | none => .err 404 "Comic not found"
  | some c => .comicJson c

/-- Stream an image file, or 404 when stat fails. -/
def streamImage (fs : FSTree) (segs : List String) : Resp :=
  match lookupFS fs segs with
  | some FSTree.file => .stream (renderAbs segs)
  | _ => .err 404 "File not found"

/-- GET /comics/:id/cover handler: session or cover capability, index
lookup, startsWith confinement check, first page of the sorted list. -/
def coverHandler (dec : String → Option SessionData) (hmac : String → String) (now : Int)
    (fs : FSTree) (comicsDir : String) (st : ScanState) (req : Req) (id : String) : Resp :=
  let hasSession := sessionOk dec hmac now req.cookie
  if !hasSession && !(optTruthy req.expires && optTruthy req.sig
      && verifySignedCoverUrl hmac now id (req.expires.getD "") (req.sig.getD "")) then
    .err 403 "Unauthorized Identifier"
  else
    match getComic st id with
    | none => .err 404 "Comic not found"
    | some comic =>
      let folderPath := normJoin comicsDir comic.name
      if !(jsStartsWith (renderAbs folderPath) (renderAbs (normSegs comicsDir))) then
        .err 403 "Invalid path"
      else
        match getComicPagesAt fs folderPath with
        | [] => .err 404 "No cover found"
        | p0 :: _ => streamImage fs (folderPath ++ splitSlash p0.relativePath)

/-- GET /comics/:id/pages handler: strict session check, index lookup,
signed URL for every page. -/
def pagesListHandler (dec : String → Option SessionData) (hmac : String → String) (now : Int)
    (fs : FSTree) (comicsDir : String) (st : ScanState) (req : Req) (id : String) : Resp :=
  if !(sessionOk dec hmac now req.cookie) then .err 401 "Unauthorized"
  else
    match getComic st id with
    | none => .err 404 "Comic not found"
    | some comic =>
      let folderPath := normJoin comicsDir comic.name
      let pages := getComicPagesAt fs folderPath
      .pagesJson id comic.name pages.length
        (pages.map (fun p => (p.index, generateSignedUrl hmac now id (p.index : Int) 31536000)))

/-- GET /comics/:id/pages/:page handler: page index validation, session
or page capability, direct id decode (no index lookup), startsWith
confinement check, stream of the selected page. -/
def pageImageHandler (dec : String → Option SessionData) (hmac : String → String) (now : Int)
    (fs : FSTree) (comicsDir : String) (req : Req) (id : String) (pageStr : String) : Resp :=
  match parseIntJs pageStr with
  | none => .err 400 "Invalid page index"
  | some pIdx =>
    if pIdx < 0 then .err 400 "Invalid page index"
    else
      let hasSession := sessionOk dec hmac now req.cookie
      if !hasSession && !(optTruthy req.expires && optTruthy req.sig
          && verifySignedUrl hmac now id pIdx (req.expires.getD "") (req.sig.getD "")) then
        .err 403 "Unauthorized Identifier"
      else
        let folderName := decodeId id
        let folderPath := normJoin comicsDir folderName
        if !(jsStartsWith (renderAbs folderPath) (renderAbs (normSegs comicsDir))) then
          .err 403 "Invalid path"
        else
          let pages := getComicPagesAt fs folderPath
          if pages.length ≤ pIdx.toNat then .err 404 "Page not found"
          else
            match pages.get? pIdx.toNat with
            | some pg => streamImage fs (folderPath ++ splitSlash pg.relativePath)
            | none => .err 404 "Page not found"

/-- GET /api/comics through the middleware. -/
def listPipeline (clientId : String) (dec : String → Option SessionData)
    (hmac : String → String) (now : Int) (st : ScanState) (pageQ limitQ : Option String)
    (req : Req) : Resp :=
  match middleware clientId dec hmac now "/api/comics" req with
  | some r => r
  | none => listComicsHandler st pageQ limitQ

/-- GET /api/comics/:id through the middleware. -/
def comicByIdPipeline (clientId : String) (dec : String → Option SessionData)
    (hmac : String → String) (now : Int) (st : ScanState) (req : Req) (id : String) : Resp :=
  match middleware clientId dec hmac now ("/api/comics/" ++ id) req with
  | some r => r
  | none => comicByIdHandler st id

/-- GET /api/comics/:id/cover through the middleware. -/
def coverPipeline (clientId : String) (dec : String → Option SessionData)
    (hmac : String → String) (now : Int) (fs : FSTree) (comicsDir : String) (st : ScanState)
    (req : Req) (id : String) : Resp :=
  match middleware clientId dec hmac now ("/api/comics/" ++ id ++ "/cover") req with
  | some r => r
  | none => coverHandler dec hmac now fs comicsDir st req id

/-- GET /api/comics/:id/pages through the middleware. -/
def pagesListPipeline (clientId : String) (dec : String → Option SessionData)
    (hmac : String → String) (now : Int) (fs : FSTree) (comicsDir : String) (st : ScanState)
    (req : Req) (id : String) : Resp :=
  match middleware clientId dec hmac now ("/api/comics/" ++ id ++ "/pages") req with
  | some r => r
  | none => pagesListHandler dec hmac now fs comicsDir st req id

/-- GET /api/comics/:id/pages/:page through the middleware. -/
def pageImagePipeline (clientId : String) (dec : String → Option SessionData)
    (hmac : String → String) (now : Int) (fs : FSTree) (comicsDir : String)
    (req : Req) (id : String) (pageStr : String) : Resp :=
  match middleware clientId dec hmac now
      ("/api/comics/" ++ id ++ "/pages/" ++ pageStr) req with
  | some r => r
  | none => pageImageHandler dec hmac now fs comicsDir req id pageStr

/-! ## Verification helpers for the signed URL claims -/

theorem verifySignedUrl_parse_some {hmac : String → String} {now : Int} {cid : String}
    {page : Int} {e s : String} {v : Int} (hp : parseIntJs e = some v) :
    verifySignedUrl hmac now cid page e s =
      if v < now then false else verifySignature hmac (pageData cid page v) s := by
  simp only [verifySignedUrl, hp]

theorem verifySignedUrl_parse_none {hmac : String → String} {now : Int} {cid : String}
    {page : Int} {e s : String} (hp : parseIntJs e = none) :
    verifySignedUrl hmac now cid page e s = false := by
  simp only [verifySignedUrl, hp]

theorem verifySignedCoverUrl_parse_some {hmac : String → String} {now : Int} {cid : String}
    {e s : String} {v : Int} (hp : parseIntJs e = some v) :
    verifySignedCoverUrl hmac now cid e s =
      if v < now then false else verifySignature hmac (coverData cid v) s := by
  simp only [verifySignedCoverUrl, hp]

theorem verifySignedCoverUrl_parse_none {hmac : String → String} {now : Int} {cid : String}
    {e s : String} (hp : parseIntJs e = none) :
    verifySignedCoverUrl hmac now cid e s = false := by
  simp only [verifySignedCoverUrl, hp]

theorem verifySignature_self (hmac : String → String) (data : String) :
    verifySignature hmac data (generateSignature hmac data) = true := by
  simp [verifySignature, generateSignature]

/-! ## Claim theorems -/

/-- C8: decodeId inverts encodeId on every folder name (strings of
Unicode scalar values, which is what valid UTF-8 denotes), in particular
on every folder name without path-traversal sequences. -/
theorem claim_C8 (n : String) : decodeId (encodeId n) = n := decodeId_encodeId n

/-- C3: a URL issued by generateSignedUrl (resp. generateSignedCoverUrl)
carries expires = now + ttl and a signature that verifySignedUrl (resp.
verifySignedCoverUrl) accepts under the same secret at every time not
past the embedded expires; verification is false when the expires
parameter is unparsable or strictly less than the current time, with no
grace window. -/
theorem claim_C3 (hmac : String → String) (cid : String) (page : Int)
    (ttl nowIss nowVer : Int) :
    (generateSignedUrl hmac nowIss cid page ttl =
      "/api/comics/" ++ cid ++ "/pages/" ++ numStr page ++ "?expires=" ++
        numStr (nowIss + ttl) ++ "&sig=" ++
        generateSignature hmac (pageData cid page (nowIss + ttl)))
    ∧ (nowVer ≤ nowIss + ttl →
        verifySignedUrl hmac nowVer cid page (numStr (nowIss + ttl))
          (generateSignature hmac (pageData cid page (nowIss + ttl))) = true)
    ∧ (generateSignedCoverUrl hmac nowIss cid ttl =
        "/api/comics/" ++ cid ++ "/cover?expires=" ++ numStr (nowIss + ttl) ++ "&sig=" ++
          generateSignature hmac (coverData cid (nowIss + ttl)))
    ∧ (nowVer ≤ nowIss + ttl →
        verifySignedCoverUrl hmac nowVer cid (numStr (nowIss + ttl))
          (generateSignature hmac (coverData cid (nowIss + ttl))) = true)
    ∧ (∀ e s, parseIntJs e = none → verifySignedUrl hmac nowVer cid page e s = false)
    ∧ (∀ e v s, parseIntJs e = some v → v < nowVer →
        verifySignedUrl hmac nowVer cid page e s = false)
    ∧ (∀ e s, parseIntJs e = none → verifySignedCoverUrl hmac nowVer cid e s = false)
    ∧ (∀ e v s, parseIntJs e = some v → v < nowVer →
        verifySignedCoverUrl hmac nowVer cid e s = false) := by
  refine ⟨rfl, ?_, rfl, ?_, ?_, ?_, ?_, ?_⟩
  · intro hle
    rw [verifySignedUrl_parse_some (parseIntJs_numStr (nowIss + ttl)),
      if_neg (by omega), verifySignature_self]
  · intro hle
    rw [verifySignedCoverUrl_parse_some (parseIntJs_numStr (nowIss + ttl)),
      if_neg (by omega), verifySignature_self]
  · intro e s hp
    exact verifySignedUrl_parse_none hp
  · intro e v s hp hlt
    rw [verifySignedUrl_parse_some hp, if_pos hlt]
  · intro e s hp
    exact verifySignedCoverUrl_parse_none hp
  · intro e v s hp hlt
    rw [verifySignedCoverUrl_parse_some hp, if_pos hlt]

theorem claim_C3_witness :
    ((5 : Int) ≤ 0 + 10 ∧
      verifySignedUrl (fun s => s) 5 "A" 0 (numStr (0 + 10))
        (generateSignature (fun s => s) (pageData "A" 0 (0 + 10))) = true) ∧
    (parseIntJs "zz" = none ∧ verifySignedUrl (fun s => s) 5 "A" 0 "zz" "q" = false) :=
  ⟨⟨by decide, (claim_C3 (fun s => s) "A" 0 10 0 5).2.1 (by decide)⟩,
   ⟨by decide, (claim_C3 (fun s => s) "A" 0 10 0 5).2.2.2.2.1 "zz" "q" (by decide)⟩⟩

/-- C4: under an injective (collision-free) MAC, a page signature is
bound to its exact comic id and page index: it fails verifySignedUrl for
every other (comicId, page) pair and fails verifySignedCoverUrl for
every cover, and a cover signature fails verifySignedUrl for every page. -/
theorem claim_C4 (hmac : String → String) (hinj : Function.Injective hmac) :
    (∀ (cid1 : String) (p1 e1 : Int) (cid2 : String) (p2 nowv : Int) (e2s : String),
      (cid1, p1) ≠ (cid2, p2) →
      verifySignedUrl hmac nowv cid2 p2 e2s
        (generateSignature hmac (pageData cid1 p1 e1)) = false)
    ∧ (∀ (cid1 : String) (p1 e1 : Int) (cid2 : String) (nowv : Int) (e2s : String),
        verifySignedCoverUrl hmac nowv cid2 e2s
          (generateSignature hmac (pageData cid1 p1 e1)) = false)
    ∧ (∀ (cid1 : String) (e1 : Int) (cid2 : String) (p2 nowv : Int) (e2s : String),
        verifySignedUrl hmac nowv cid2 p2 e2s
          (generateSignature hmac (coverData cid1 e1)) = false) := by
  refine ⟨?_, ?_, ?_⟩
  · intro cid1 p1 e1 cid2 p2 nowv e2s hne
    rcases hp : parseIntJs e2s with _ | v
    · exact verifySignedUrl_parse_none hp
    · rw [verifySignedUrl_parse_some hp]
      split
      · rfl
      · rw [verifySignature, generateSignature, generateSignature, beq_eq_false_iff_ne]
        intro heq
        obtain ⟨hc, hp2, _⟩ := pageData_inj (hinj heq)
        exact hne (by rw [hc, hp2])
  · intro cid1 p1 e1 cid2 nowv e2s
    rcases hp : parseIntJs e2s with _ | v
    · exact verifySignedCoverUrl_parse_none hp
    · rw [verifySignedCoverUrl_parse_some hp]
      split
      · rfl
      · rw [verifySignature, generateSignature, generateSignature, beq_eq_false_iff_ne]
        intro heq
        exact pageData_ne_coverData cid1 cid2 p1 e1 v (hinj heq).symm
  · intro cid1 e1 cid2 p2 nowv e2s
    rcases hp : parseIntJs e2s with _ | v
    · exact verifySignedUrl_parse_none hp
    · rw [verifySignedUrl_parse_some hp]
      split
      · rfl
      · rw [verifySignature, generateSignature, generateSignature, beq_eq_false_iff_ne]
        intro heq
        exact pageData_ne_coverData cid2 cid1 p2 v e1 (hinj heq)

theorem claim_C4_witness :
    Function.Injective (fun s : String => s) ∧
    (("A", (3 : Int)) ≠ ("A", (4 : Int)) ∧
      verifySignedUrl (fun s => s) 0 "A" 4 (numStr 9)
        (generateSignature (fun s => s) (pageData "A" 3 9)) = false) ∧
    verifySignedCoverUrl (fun s => s) 0 "A" (numStr 9)
      (generateSignature (fun s => s) (pageData "A" 3 9)) = false :=
  ⟨fun _ _ h => h,
   ⟨by decide,
    (claim_C4 (fun s => s) (fun _ _ h => h)).1 "A" 3 9 "A" 4 0 (numStr 9) (by decide)⟩,
   (claim_C4 (fun s => s) (fun _ _ h => h)).2.1 "A" 3 9 "A" 0 (numStr 9)⟩

theorem utf8EncodeChar_ne_nil (n : Nat) : utf8EncodeChar n ≠ [] := by
  rw [utf8EncodeChar]
  split
  · simp
  · split
    · simp
    · split
      · simp
      · simp

theorem utf8Encode_ne_nil {cs : List Char} (h : cs ≠ []) : utf8Encode cs ≠ [] := by
  cases cs with
  | nil => exact absurd rfl h
  | cons c rest =>
    rw [utf8Encode]
    rcases hx : utf8EncodeChar c.toNat with _ | ⟨b, bs⟩
    · exact absurd hx (utf8EncodeChar_ne_nil c.toNat)
    · simp

theorem base64urlEncode_ne_nil : ∀ {bs : List Nat}, bs ≠ [] → base64urlEncode bs ≠ [] := by
  intro bs h
  rcases bs with _ | ⟨b0, _ | ⟨b1, _ | ⟨b2, rest⟩⟩⟩
  · exact absurd rfl h
  · rw [base64urlEncode]; simp
  · rw [base64urlEncode]; simp
  · rw [base64urlEncode]; simp

/-- C5: verifySessionToken inverts generateSessionToken for every
session whose expiry is not in the past (under the runtime facts that
the serializer round-trips, is nonempty, and the MAC output is nonempty
and dot-free), and returns none — it is total, never throwing — on
structurally malformed tokens, signature mismatches, undecodable
payloads, and expired sessions. -/
theorem claim_C5 (enc : SessionData → String) (dec : String → Option SessionData)
    (hmac : String → String) (now : Int) :
    (∀ s : SessionData, dec (enc s) = some s → (enc s).data ≠ [] →
      '.' ∉ (hmac (enc s)).data → (hmac (enc s)).data ≠ [] →
      now ≤ s.expiresAt →
      verifySessionToken dec hmac now (generateSessionToken enc hmac s) = some s)
    ∧ (∀ t : String, '.' ∉ t.data → verifySessionToken dec hmac now t = none)
    ∧ (∀ (t : String) (p0 p1 : List Char) (rest : List (List Char)),
        splitChar '.' t.data = p0 :: p1 :: rest → (p0 = [] ∨ p1 = []) →
        verifySessionToken dec hmac now t = none)
    ∧ (∀ (t : String) (p0 p1 : List Char) (rest : List (List Char)),
        splitChar '.' t.data = p0 :: p1 :: rest →
        hmac (String.mk (utf8DecodeLenient (base64urlDecodeLenient p0))) ≠ String.mk p1 →
        verifySessionToken dec hmac now t = none)
    ∧ (∀ (t : String) (p0 p1 : List Char) (rest : List (List Char)),
        splitChar '.' t.data = p0 :: p1 :: rest →
        dec (String.mk (utf8DecodeLenient (base64urlDecodeLenient p0))) = none →
        verifySessionToken dec hmac now t = none)
    ∧ (∀ (t : String) (p0 p1 : List Char) (rest : List (List Char)) (d : SessionData),
        splitChar '.' t.data = p0 :: p1 :: rest →
        dec (String.mk (utf8DecodeLenient (base64urlDecodeLenient p0))) = some d →
        d.expiresAt < now →
        verifySessionToken dec hmac now t = none) := by
  refine ⟨?_, ?_, ?_, ?_, ?_, ?_⟩
  · intro s hdec hpne hdot hsne hfut
    have hbytes : ∀ b ∈ utf8Encode (enc s).data, b < 256 := utf8Encode_lt_256 _
    have hnodot : '.' ∉ base64urlEncode (utf8Encode (enc s).data) := by
      intro hmem
      exact base64urlEncode_ne_dot _ hbytes '.' hmem rfl
    have hdata : (generateSessionToken enc hmac s).data =
        base64urlEncode (utf8Encode (enc s).data) ++ '.' :: (hmac (enc s)).data := by
      rw [generateSessionToken, generateSignature, String.data_append, String.data_append]
      show (base64urlEncode (utf8Encode (enc s).data)) ++ ['.'] ++ (hmac (enc s)).data = _
      rw [List.append_assoc]
      rfl
    have hsplit : splitChar '.' (generateSessionToken enc hmac s).data =
        [base64urlEncode (utf8Encode (enc s).data), (hmac (enc s)).data] := by
      rw [hdata, splitChar_append '.' _ _ hnodot, splitChar_no_sep '.' _ hdot]
    have hb64ne : base64urlEncode (utf8Encode (enc s).data) ≠ [] :=
      base64urlEncode_ne_nil (utf8Encode_ne_nil hpne)
    simp only [verifySessionToken, hsplit]
    rw [if_neg (by simp [List.isEmpty_iff, hb64ne, hsne])]
    have hpay : String.mk (utf8DecodeLenient (base64urlDecodeLenient
        (base64urlEncode (utf8Encode (enc s).data)))) = enc s := by
      rw [b64_roundtrip _ hbytes, utf8_roundtrip]
    rw [hpay]
    have hsigeta : String.mk (hmac (enc s)).data = hmac (enc s) := rfl
    rw [hsigeta, verifySignature, generateSignature]
    rw [if_pos (beq_self_eq_true (hmac (enc s)))]
    rw [hdec]
    show (if s.expiresAt < now then none else some s) = some s
    rw [if_neg (by omega)]
  · intro t h
    simp only [verifySessionToken, splitChar_no_sep '.' t.data h]
  · intro t p0 p1 rest hsplit hor
    rcases hor with rfl | rfl
    · simp only [verifySessionToken, hsplit]
      rw [if_pos (by simp)]
    · simp only [verifySessionToken, hsplit]
      rw [if_pos (by simp)]
  · intro t p0 p1 rest hsplit hne
    by_cases hemp : (p0.isEmpty || p1.isEmpty) = true
    · simp only [verifySessionToken, hsplit]
      rw [if_pos hemp]
    · simp only [verifySessionToken, hsplit]
      rw [if_neg hemp]
      have hv : verifySignature hmac
          (String.mk (utf8DecodeLenient (base64urlDecodeLenient p0))) (String.mk p1) = false := by
        rw [verifySignature, generateSignature]
        exact beq_eq_false_iff_ne.mpr hne
      rw [hv]
      simp
  · intro t p0 p1 rest hsplit hdnone
    by_cases hemp : (p0.isEmpty || p1.isEmpty) = true
    · simp only [verifySessionToken, hsplit]
      rw [if_pos hemp]
    · simp only [verifySessionToken, hsplit]
      rw [if_neg hemp]
      rcases hv : verifySignature hmac
          (String.mk (utf8DecodeLenient (base64urlDecodeLenient p0))) (String.mk p1) with _ | _
      · simp
      · simp [hdnone]
  · intro t p0 p1 rest d hsplit hdsome hlt
    by_cases hemp : (p0.isEmpty || p1.isEmpty) = true
    · simp only [verifySessionToken, hsplit]
      rw [if_pos hemp]
    · simp only [verifySessionToken, hsplit]
      rw [if_neg hemp]
      rcases hv : verifySignature hmac
          (String.mk (utf8DecodeLenient (base64urlDecodeLenient p0))) (String.mk p1) with _ | _
      · simp
      · simp [hdsome, hlt]

/-! ## Concrete fixtures for witnesses and failing inputs -/

/-- A MAC stand-in for concrete evaluations (the identity function,
which is injective). -/
def demoMac : String → String := fun s => s

/-- A concrete session expiring at epoch second 1000. -/
def demoSession : SessionData := ⟨"user", none, none, none, 1000⟩

/-- A one-point serializer for concrete evaluations. -/
def demoEnc : SessionData → String := fun _ => "p"

/-- The parser matching demoEnc. -/
def demoDec : String → Option SessionData := fun t => if t = "p" then some demoSession else none

/-- A parser that always fails (no session is ever valid). -/
def noDec : String → Option SessionData := fun _ => none

theorem claim_C5_witness :
    (demoDec (demoEnc demoSession) = some demoSession ∧
      (demoEnc demoSession).data ≠ [] ∧
      '.' ∉ (demoMac (demoEnc demoSession)).data ∧
      (demoMac (demoEnc demoSession)).data ≠ [] ∧
      (5 : Int) ≤ demoSession.expiresAt ∧
      verifySessionToken demoDec demoMac 5 (generateSessionToken demoEnc demoMac demoSession)
        = some demoSession) ∧
    ('.' ∉ ("junk" : String).data ∧ verifySessionToken demoDec demoMac 5 "junk" = none) := by
  constructor
  · refine ⟨by decide, by decide, by decide, by decide, by decide, ?_⟩
    exact (claim_C5 demoEnc demoDec demoMac 5).1 demoSession (by decide) (by decide)
      (by decide) (by decide) (by decide)
  · refine ⟨by decide, ?_⟩
    exact (claim_C5 demoEnc demoDec demoMac 5).2.1 "junk" (by decide)

/-- The natural-sort example folder: three pages in readdir order
page1, page10, page2. -/
def pagesDemo : FSTree :=
  .dir (FSEntries.ofList [("page1.jpg", .file), ("page10.jpg", .file), ("page2.jpg", .file)])

theorem getComicPages_pairwise (t : FSTree) :
    (getComicPages t).Pairwise
      (fun p q => naturalLe p.relativePath q.relativePath = true) := by
  simp only [getComicPages]
  rw [List.pairwise_map]
  have hs : (sortBy (fun a b : ImgFile => naturalLe a.relativePath b.relativePath)
      (scanImagesRecursive t)).Pairwise
      (fun a b : ImgFile => naturalLe a.relativePath b.relativePath = true) :=
    pairwise_sortBy (fun x y => naturalLe_total x.relativePath y.relativePath)
      (fun x y z => naturalLe_trans x.relativePath y.relativePath z.relativePath) _
  rw [← List.enum_map_snd (sortBy (fun a b : ImgFile =>
    naturalLe a.relativePath b.relativePath) (scanImagesRecursive t))] at hs
  exact List.pairwise_map.mp hs

theorem getComicPages_indexes (t : FSTree) :
    (getComicPages t).map (fun p => p.index) = List.range (getComicPages t).length := by
  simp only [getComicPages]
  rw [List.map_map]
  have hcomp : ((fun p : PageInfo => p.index) ∘
      (fun p : Nat × ImgFile => (⟨p.1, p.2.filename, p.2.relativePath⟩ : PageInfo))) =
      Prod.fst := funext (fun a => rfl)
  rw [hcomp, List.enum_map_fst, List.length_map, List.enum_length]

/-- C9: getComicPages returns image files in locale-aware natural order
on the relative path (page1, page2, page10 on the example), with index
fields 0, 1, 2, ... in that order, and identical file sets always yield
the identical index-to-file mapping. -/
theorem claim_C9 :
    (getComicPages pagesDemo =
      [⟨0, "page1.jpg", "page1.jpg"⟩, ⟨1, "page2.jpg", "page2.jpg"⟩,
       ⟨2, "page10.jpg", "page10.jpg"⟩])
    ∧ (∀ t : FSTree, (getComicPages t).Pairwise
        (fun p q => naturalLe p.relativePath q.relativePath = true))
    ∧ (∀ t : FSTree,
        (getComicPages t).map (fun p => p.index) = List.range (getComicPages t).length)
    ∧ (∀ t1 t2 : FSTree, scanImagesRecursive t1 = scanImagesRecursive t2 →
        getComicPages t1 = getComicPages t2) := by
  refine ⟨by decide, getComicPages_pairwise, getComicPages_indexes, ?_⟩
  intro t1 t2 h
  simp only [getComicPages, h]

theorem claim_C9_witness :
    (getComicPages pagesDemo).Pairwise
      (fun p q => naturalLe p.relativePath q.relativePath = true) ∧
    (scanImagesRecursive pagesDemo = scanImagesRecursive pagesDemo ∧
      getComicPages pagesDemo = getComicPages pagesDemo) :=
  ⟨claim_C9.2.1 pagesDemo, rfl, claim_C9.2.2.2 pagesDemo pagesDemo rfl⟩

/-- The comics root /opt/comics with one indexed comic folder Book, and
a sibling directory /opt/comics-evil outside the root. -/
def fsDemo : FSTree :=
  .dir (FSEntries.ofList
    [("opt", .dir (FSEntries.ofList
      [("comics", .dir (FSEntries.ofList
        [("Book", .dir (FSEntries.ofList [("1.jpg", .file)]))])),
       ("comics-evil", .dir (FSEntries.ofList [("secret.jpg", .file)]))]))])

/-- The index after the initial scan of fsDemo. -/
def stDemo : ScanState := initScanner demoMac 0 fsDemo "/opt/comics"

/-- C1: evaluation at the failing input. Without any session, a request
to the metadata endpoint GET /api/comics/:id with id beginning in cover
(here GET /api/comics/cover, with expires and sig query parameters that
verify nothing) passes the middleware through its path-substring test
and reaches the handler, answering 404 instead of the claimed 401; the
comic list and the page-list endpoints do deny with 401. -/
theorem claim_C1 :
    comicByIdPipeline "client" noDec demoMac 0 stDemo ⟨none, some "1", some "sig"⟩ "cover"
      = Resp.err 404 "Comic not found"
    ∧ listPipeline "client" noDec demoMac 0 stDemo none none ⟨none, some "1", some "sig"⟩
      = Resp.err 401 "Unauthorized: Missing Session or Signature"
    ∧ pagesListPipeline "client" noDec demoMac 0 fsDemo "/opt/comics" stDemo
        ⟨none, some "1", some "sig"⟩ "cover"
      = Resp.err 401 "Unauthorized" :=
  ⟨by decide, by decide, by decide⟩

/-- C2: evaluation at the failing input. With a valid session, a page
request whose id decodes to ../comics-evil resolves to /opt/comics-evil
— not under the root /opt/comics as segments, second conjunct — yet the
startsWith string check accepts it (shared prefix) and the handler
streams a file from outside the root instead of returning 403. -/
theorem claim_C2 :
    pageImagePipeline "client" demoDec demoMac 0 fsDemo "/opt/comics"
      ⟨some (generateSessionToken demoEnc demoMac demoSession), none, none⟩
      (encodeId "../comics-evil") "0"
      = Resp.stream "/opt/comics-evil/secret.jpg"
    ∧ (normSegs "/opt/comics").isPrefixOf
        (normJoin "/opt/comics" (decodeId (encodeId "../comics-evil"))) = false :=
  ⟨by decide, by decide⟩

/-! ## Path and substring lemmas for the general route theorems -/

theorem containsSeq_append_mid : ∀ (pre sub post : List Char),
    containsSeq sub (pre ++ (sub ++ post)) = true := by
  intro pre
  induction pre with
  | nil =>
    intro sub post
    cases sub with
    | nil =>
      cases post with
      | nil => rfl
      | cons c t => simp [containsSeq, List.isPrefixOf]
    | cons c t =>
      show containsSeq (c :: t) (c :: (t ++ post)) = true
      rw [containsSeq,
        List.isPrefixOf_iff_prefix.mpr (by exact List.prefix_append (c :: t) post)]
      simp
  | cons p ps ih =>
    intro sub post
    show containsSeq sub (p :: (ps ++ (sub ++ post))) = true
    rw [containsSeq, ih sub post]
    simp

theorem jsIncludes_cover_end (pre : String) : jsIncludes (pre ++ "/cover") "/cover" = true := by
  rw [jsIncludes, String.data_append]
  have h := containsSeq_append_mid pre.data "/cover".data []
  simpa using h

theorem jsIncludes_pages_mid (pre post : String) :
    jsIncludes (pre ++ "/pages/" ++ post) "/pages/" = true := by
  rw [jsIncludes, String.data_append, String.data_append, List.append_assoc]
  exact containsSeq_append_mid pre.data "/pages/".data post.data

/-- A plain folder-name segment: nonempty, not a dot segment, no slash. -/
def validSeg (s : String) : Bool :=
  s != "" && s != "." && s != ".." && !(s.data.contains '/')

theorem validSeg_facts {s : String} (h : validSeg s = true) :
    s ≠ "" ∧ s ≠ "." ∧ s ≠ ".." ∧ '/' ∉ s.data := by
  simp only [validSeg, Bool.and_eq_true, bne_iff_ne, Bool.not_eq_true'] at h
  refine ⟨h.1.1.1, h.1.1.2, h.1.2, ?_⟩
  intro hm
  have h2 := h.2
  rw [List.contains_eq_any_beq] at h2
  simp only [List.any_eq_false] at h2
  exact h2 '/' hm rfl

theorem splitSlash_single {s : String} (h : '/' ∉ s.data) : splitSlash s = [s] := by
  rw [splitSlash, splitChar_no_sep '/' s.data h]
  rfl

theorem normStack_append_valid (xs : List String) {s : String} (h : validSeg s = true) :
    normStack (xs ++ [s]) = normStack xs ++ [s] := by
  obtain ⟨h1, h2, h3, _⟩ := validSeg_facts h
  rw [normStack, normStack, List.foldl_append]
  simp only [List.foldl_cons, List.foldl_nil]
  rw [if_neg (by tauto), if_neg h3]

theorem normJoin_valid {base s : String} (h : validSeg s = true) :
    normJoin base s = normSegs base ++ [s] := by
  obtain ⟨_, _, _, h4⟩ := validSeg_facts h
  rw [normJoin, splitSlash_single h4, normStack_append_valid _ h]
  rfl

theorem renderAbs_append_one (segs : List String) (s : String) :
    renderAbs (segs ++ [s]) = renderAbs segs ++ "/" ++ s := by
  rw [renderAbs, renderAbs, List.foldl_append]
  simp only [List.foldl_cons, List.foldl_nil]

theorem jsStartsWith_append (p q : String) : jsStartsWith (p ++ q) p = true := by
  rw [jsStartsWith, String.data_append]
  exact List.isPrefixOf_iff_prefix.mpr (List.prefix_append p.data q.data)

theorem jsStartsWith_slash (p n : String) : jsStartsWith (p ++ "/" ++ n) p = true := by
  rw [jsStartsWith, String.data_append, String.data_append, List.append_assoc]
  exact List.isPrefixOf_iff_prefix.mpr (List.prefix_append p.data _)

theorem middleware_pass_capability {clientId : String} {dec : String → Option SessionData}
    {hmac : String → String} {now : Int} {path : String} {e s : Option String}
    (hcid : clientId ≠ "")
    (hinc : (jsIncludes path "/pages/" || jsIncludes path "/cover") = true)
    (he : optTruthy e = true) (hs : optTruthy s = true) :
    middleware clientId dec hmac now path ⟨none, e, s⟩ = none := by
  rw [middleware]
  rw [if_neg (by simp [hcid])]
  rw [if_neg (show ¬ (sessionOk dec hmac now (Req.mk none e s).cookie = true) by
    rw [show sessionOk dec hmac now (Req.mk none e s).cookie = false from rfl]
    simp)]
  rw [if_pos (by simp [hinc, he, hs])]

/-- C10: with no session cookie and a valid capability, the cover route
resolves through the in-memory index and answers 404 whenever the id is
absent from it, whatever the disk holds; the single-page route decodes
the id directly and never consults the index, so pages stay servable for
folders the index does not know. -/
theorem claim_C10 :
    (∀ (clientId : String) (dec : String → Option SessionData) (hmac : String → String)
        (now : Int) (fs : FSTree) (comicsDir : String) (st : ScanState)
        (e s : Option String) (id : String),
      clientId ≠ "" → optTruthy e = true → optTruthy s = true →
      verifySignedCoverUrl hmac now id (e.getD "") (s.getD "") = true →
      getComic st id = none →
      coverPipeline clientId dec hmac now fs comicsDir st ⟨none, e, s⟩ id
        = Resp.err 404 "Comic not found")
    ∧ (∀ (clientId : String) (dec : String → Option SessionData) (hmac : String → String)
        (now : Int) (fs : FSTree) (comicsDir : String) (st : ScanState)
        (e s : Option String) (name pageStr : String) (pIdx : Int) (pg : PageInfo),
      clientId ≠ "" → optTruthy e = true → optTruthy s = true →
      parseIntJs pageStr = some pIdx → ¬ pIdx < 0 →
      verifySignedUrl hmac now (encodeId name) pIdx (e.getD "") (s.getD "") = true →
      validSeg name = true →
      getComic st (encodeId name) = none →
      (getComicPagesAt fs (normJoin comicsDir name)).get? pIdx.toNat = some pg →
      lookupFS fs (normJoin comicsDir name ++ splitSlash pg.relativePath) = some FSTree.file →
      pageImagePipeline clientId dec hmac now fs comicsDir ⟨none, e, s⟩ (encodeId name) pageStr
        = Resp.stream (renderAbs (normJoin comicsDir name ++ splitSlash pg.relativePath))) := by
  constructor
  · intro clientId dec hmac now fs comicsDir st e s id hcid he hs hver hnone
    rw [coverPipeline, middleware_pass_capability hcid
      (by rw [jsIncludes_cover_end ("/api/comics/" ++ id)]; simp) he hs]
    show coverHandler dec hmac now fs comicsDir st ⟨none, e, s⟩ id = _
    simp only [coverHandler]
    rw [if_neg (show ¬ ((!(sessionOk dec hmac now (Req.mk none e s).cookie) &&
        !(optTruthy (Req.mk none e s).expires && optTruthy (Req.mk none e s).sig &&
          verifySignedCoverUrl hmac now id ((Req.mk none e s).expires.getD "")
            ((Req.mk none e s).sig.getD ""))) = true) by
      show ¬ ((!(sessionOk dec hmac now none) &&
        !(optTruthy e && optTruthy s &&
          verifySignedCoverUrl hmac now id (e.getD "") (s.getD ""))) = true)
      rw [he, hs, hver]
      simp)]
    rw [hnone]
  · intro clientId dec hmac now fs comicsDir st e s name pageStr pIdx pg
      hcid he hs hparse hnneg hver hvalid hnone hget hfile
    rw [pageImagePipeline, middleware_pass_capability hcid
      (by rw [jsIncludes_pages_mid ("/api/comics/" ++ encodeId name) pageStr]; simp) he hs]
    show pageImageHandler dec hmac now fs comicsDir ⟨none, e, s⟩ (encodeId name) pageStr = _
    simp only [pageImageHandler, hparse]
    rw [if_neg hnneg]
    rw [if_neg (show ¬ ((!(sessionOk dec hmac now (Req.mk none e s).cookie) &&
        !(optTruthy (Req.mk none e s).expires && optTruthy (Req.mk none e s).sig &&
          verifySignedUrl hmac now (encodeId name) pIdx ((Req.mk none e s).expires.getD "")
            ((Req.mk none e s).sig.getD ""))) = true) by
      show ¬ ((!(sessionOk dec hmac now none) &&
        !(optTruthy e && optTruthy s &&
          verifySignedUrl hmac now (encodeId name) pIdx (e.getD "") (s.getD ""))) = true)
      rw [he, hs, hver]
      simp)]
    rw [decodeId_encodeId]
    rw [if_neg (show ¬ ((!(jsStartsWith (renderAbs (normJoin comicsDir name))
        (renderAbs (normSegs comicsDir)))) = true) by
      rw [normJoin_valid hvalid, renderAbs_append_one, jsStartsWith_slash]
      simp)]
    have hlt : pIdx.toNat < (getComicPagesAt fs (normJoin comicsDir name)).length := by
      obtain ⟨hb, _⟩ := List.get?_eq_some.mp hget
      exact hb
    rw [if_neg (by omega)]
    rw [hget]
    show streamImage fs (normJoin comicsDir name ++ splitSlash pg.relativePath) = _
    simp only [streamImage, hfile]

theorem claim_C10_witness :
    (("client" : String) ≠ "" ∧
      optTruthy (some (numStr 99)) = true ∧
      optTruthy (some (coverData (encodeId "Book") 99)) = true ∧
      verifySignedCoverUrl demoMac 0 (encodeId "Book") ((some (numStr 99)).getD "")
        ((some (coverData (encodeId "Book") 99)).getD "") = true ∧
      getComic ⟨[], []⟩ (encodeId "Book") = none ∧
      coverPipeline "client" noDec demoMac 0 fsDemo "/opt/comics" ⟨[], []⟩
        ⟨none, some (numStr 99), some (coverData (encodeId "Book") 99)⟩ (encodeId "Book")
        = Resp.err 404 "Comic not found") ∧
    pageImagePipeline "client" noDec demoMac 0 fsDemo "/opt/comics"
      ⟨none, some (numStr 99), some (pageData (encodeId "Book") 0 99)⟩ (encodeId "Book") "0"
      = Resp.stream (renderAbs (normJoin "/opt/comics" "Book" ++ splitSlash "1.jpg")) := by
  constructor
  · refine ⟨by decide, by decide, by decide, by decide, by decide, ?_⟩
    exact claim_C10.1 "client" noDec demoMac 0 fsDemo "/opt/comics" ⟨[], []⟩
      (some (numStr 99)) (some (coverData (encodeId "Book") 99)) (encodeId "Book")
      (by decide) (by decide) (by decide) (by decide) (by decide)
  · exact claim_C10.2 "client" noDec demoMac 0 fsDemo "/opt/comics" ⟨[], []⟩
      (some (numStr 99)) (some (pageData (encodeId "Book") 0 99)) "Book" "0" 0
      ⟨0, "1.jpg", "1.jpg"⟩ (by decide) (by decide) (by decide) (by decide) (by decide)
      (by decide) (by decide) (by decide) (by decide) (by rfl)

/-! ## Map and fold lemmas for the directory index -/

theorem jsMapGet_cons_pos {p : String × ComicInfo} {t : List (String × ComicInfo)}
    {k : String} (h : (p.1 == k) = true) : jsMapGet (p :: t) k = some p.2 := by
  simp [jsMapGet, List.find?_cons, h]

theorem jsMapGet_cons_neg {p : String × ComicInfo} {t : List (String × ComicInfo)}
    {k : String} (h : (p.1 == k) = false) : jsMapGet (p :: t) k = jsMapGet t k := by
  simp [jsMapGet, List.find?_cons, h]

theorem jsMapGet_map_replace (k k2 : String) (v : ComicInfo) (hne : k2 ≠ k) :
    ∀ m : List (String × ComicInfo),
    jsMapGet (m.map (fun p => if p.1 == k then (k, v) else p)) k2 = jsMapGet m k2 := by
  intro m
  induction m with
  | nil => rfl
  | cons p t ih =>
    rw [List.map_cons]
    by_cases hpk : (p.1 == k) = true
    · have hp1 : p.1 = k := by simpa using hpk
      rw [if_pos hpk, jsMapGet_cons_neg (by simp [Ne.symm hne]),
        jsMapGet_cons_neg (by simp [hp1, Ne.symm hne])]
      exact ih
    · rw [if_neg hpk]
      by_cases hpk2 : (p.1 == k2) = true
      · rw [jsMapGet_cons_pos hpk2, jsMapGet_cons_pos hpk2]
      · rw [jsMapGet_cons_neg (by simpa using hpk2), jsMapGet_cons_neg (by simpa using hpk2)]
        exact ih

theorem jsMapGet_append_one (k k2 : String) (v : ComicInfo) (hne : k2 ≠ k) :
    ∀ m : List (String × ComicInfo), jsMapGet (m ++ [(k, v)]) k2 = jsMapGet m k2 := by
  intro m
  induction m with
  | nil =>
    rw [List.nil_append, jsMapGet_cons_neg (by simp [Ne.symm hne])]
  | cons p t ih =>
    rw [List.cons_append]
    by_cases hpk2 : (p.1 == k2) = true
    · rw [jsMapGet_cons_pos hpk2, jsMapGet_cons_pos hpk2]
    · rw [jsMapGet_cons_neg (by simpa using hpk2), jsMapGet_cons_neg (by simpa using hpk2)]
      exact ih

theorem jsMapGet_set_self : ∀ (m : List (String × ComicInfo)) (k : String) (v : ComicInfo),
    jsMapGet (jsMapSet m k v) k = some v := by
  intro m k v
  rw [jsMapSet]
  split
  · rename_i hany
    induction m with
    | nil => simp at hany
    | cons p t ih =>
      rw [List.map_cons]
      by_cases hpk : (p.1 == k) = true
      · rw [if_pos hpk, jsMapGet_cons_pos (by simp)]
      · rw [if_neg hpk, jsMapGet_cons_neg (by simpa using hpk)]
        rw [List.any_cons] at hany
        rcases Bool.or_eq_true_iff.mp hany with h1 | h1
        · exact absurd h1 hpk
        · exact ih h1
  · rename_i hany
    induction m with
    | nil =>
      rw [List.nil_append, jsMapGet_cons_pos (by simp)]
    | cons p t ih =>
      have hpk : (p.1 == k) = false := by
        by_contra hc
        simp only [Bool.not_eq_false] at hc
        exact hany (by rw [List.any_cons, hc]; simp)
      rw [List.cons_append, jsMapGet_cons_neg hpk]
      have hanyt : ¬ t.any (fun p => p.1 == k) = true := by
        intro hc
        exact hany (by rw [List.any_cons, hc]; simp)
      exact ih hanyt

theorem jsMapGet_set_other (m : List (String × ComicInfo)) (k k2 : String) (v : ComicInfo)
    (hne : k2 ≠ k) : jsMapGet (jsMapSet m k v) k2 = jsMapGet m k2 := by
  rw [jsMapSet]
  split
  · exact jsMapGet_map_replace k k2 v hne m
  · exact jsMapGet_append_one k k2 v hne m

theorem jsMapGet_delete_self : ∀ (m : List (String × ComicInfo)) (k : String),
    jsMapGet (jsMapDelete m k) k = none := by
  intro m k
  induction m with
  | nil => rfl
  | cons p t ih =>
    rw [jsMapDelete, List.filter_cons]
    split
    · rename_i hkeep
      have hne : (p.1 == k) = false := by
        simp only [bne_iff_ne, ne_eq, decide_eq_true_eq] at hkeep
        simpa using hkeep
      rw [jsMapGet_cons_neg hne]
      exact ih
    · exact ih

theorem jsMapHas_false_get {m : List (String × ComicInfo)} {k : String}
    (h : jsMapHas m k = false) : jsMapGet m k = none := by
  rw [jsMapHas] at h
  rw [jsMapGet]
  rcases hf : List.find? (fun p => p.1 == k) m with _ | p
  · rw [hf]
    rfl
  · rw [hf] at h
    simp at h

theorem getComic_unlink (st : ScanState) (name : String) :
    getComic (applyUnlinkDir st name) (encodeId name) = none := by
  rw [applyUnlinkDir]
  split
  · show jsMapGet (jsMapDelete st.map (encodeId name)) (encodeId name) = none
    exact jsMapGet_delete_self _ _
  · rename_i hhas
    show jsMapGet st.map (encodeId name) = none
    exact jsMapHas_false_get (Bool.not_eq_true _ ▸ hhas)

theorem scanSingleComic_fields {hmac : String → String} {now : Int} {fs : FSTree}
    {comicsDir folderName : String} {c : ComicInfo}
    (h : scanSingleComic hmac now fs comicsDir folderName = some c) :
    c.id = encodeId folderName ∧ c.name = folderName ∧
    c.pageCount = (getComicPagesAt fs (normJoin comicsDir folderName)).length := by
  rw [scanSingleComic] at h
  split at h
  · obtain rfl := Option.some.inj h
    exact ⟨rfl, rfl, rfl⟩
  · exact absurd h (by simp)

theorem jsMapGet_initStep_other {hmac : String → String} {now : Int} {fs : FSTree}
    {comicsDir : String} (m : List (String × ComicInfo)) (e : String × FSTree) {k : String}
    (hne : encodeId e.1 ≠ k) :
    jsMapGet (initStep hmac now fs comicsDir m e) k = jsMapGet m k := by
  rw [initStep]
  split
  · split
    · rename_i c hscan
      obtain ⟨hid, _, _⟩ := scanSingleComic_fields hscan
      rw [hid]
      exact jsMapGet_set_other m (encodeId e.1) k c (Ne.symm hne)
    · rfl
  · rfl

theorem foldl_initStep_other {hmac : String → String} {now : Int} {fs : FSTree}
    {comicsDir : String} : ∀ (es : List (String × FSTree)) (m : List (String × ComicInfo))
    {k : String}, (∀ e ∈ es, encodeId e.1 ≠ k) →
    jsMapGet (es.foldl (initStep hmac now fs comicsDir) m) k = jsMapGet m k := by
  intro es
  induction es with
  | nil => intro m k _; rfl
  | cons e t ih =>
    intro m k hall
    rw [List.foldl_cons, ih _ (fun x hx => hall x (by simp [hx]))]
    exact jsMapGet_initStep_other m e (hall e (by simp))

theorem foldl_initStep_found {hmac : String → String} {now : Int} {fs : FSTree}
    {comicsDir : String} : ∀ (es : List (String × FSTree))
    (m : List (String × ComicInfo)) (name : String) (tr : FSEntries),
    (name, FSTree.dir tr) ∈ es → (es.map (fun e => e.1)).Nodup →
    jsMapGet m (encodeId name) = none →
    jsMapGet (es.foldl (initStep hmac now fs comicsDir) m) (encodeId name)
      = scanSingleComic hmac now fs comicsDir name := by
  intro es
  induction es with
  | nil => intro m name tr hmem; exact absurd hmem (List.not_mem_nil _)
  | cons e t ih =>
    intro m name tr hmem hnd hm0
    have hnd3 : (e.1 :: t.map (fun e => e.1)).Nodup := by
      rw [List.map_cons] at hnd
      exact hnd
    have hnd2 := List.nodup_cons.mp hnd3
    rcases List.mem_cons.mp hmem with heq | hin
    · have he1 : e.1 = name := by rw [← heq]
      have hrest : ∀ x ∈ t, encodeId x.1 ≠ encodeId name := by
        intro x hx hcx
        have hxname : x.1 = name := encodeId_inj hcx
        exact hnd2.1 (he1 ▸ hxname ▸ List.mem_map_of_mem (fun e => e.1) hx)
      rw [List.foldl_cons, foldl_initStep_other t _ hrest]
      rw [← heq]
      show jsMapGet (initStep hmac now fs comicsDir m (name, FSTree.dir tr)) (encodeId name)
        = scanSingleComic hmac now fs comicsDir name
      rw [initStep]
      rcases hscan : scanSingleComic hmac now fs comicsDir name with _ | c
      · exact hm0
      · obtain ⟨hid, _, _⟩ := scanSingleComic_fields hscan
        show jsMapGet (jsMapSet m c.id c) (encodeId name) = some c
        rw [hid]
        exact jsMapGet_set_self m (encodeId name) c
    · have he1 : e.1 ≠ name := by
        intro hx
        have hmemname : name ∈ t.map (fun e => e.1) :=
          List.mem_map_of_mem (fun e => e.1) hin
        exact hnd2.1 (hx ▸ hmemname)
      rw [List.foldl_cons]
      refine ih _ name tr hin hnd2.2 ?_
      rw [jsMapGet_initStep_other m e (fun hc => he1 (encodeId_inj hc))]
      exact hm0
theorem lookupFS_append (q : List String) : ∀ (p : List String) (t : FSTree),
    lookupFS t (p ++ q) = (lookupFS t p).bind (fun t2 => lookupFS t2 q) := by
  intro p
  induction p with
  | nil => intro t; rfl
  | cons seg rest ih =>
    intro t
    cases t with
    | file => rfl
    | dir es =>
      show (match es.findName seg with
        | some t2 => lookupFS t2 (rest ++ q)
        | none => none) = _
      rcases hf : es.findName seg with _ | t2
      · show none = (match es.findName seg with
          | some t2 => lookupFS t2 rest
          | none => none).bind _
        rw [hf]
        rfl
      · show lookupFS t2 (rest ++ q) = (match es.findName seg with
          | some t2 => lookupFS t2 rest
          | none => none).bind _
        rw [hf, ih t2]

theorem findName_nodup : ∀ (es : FSEntries) (name : String) (tr : FSTree),
    (es.toList.map (fun e => e.1)).Nodup → (name, tr) ∈ es.toList →
    es.findName name = some tr
  | .nil, name, tr => by
    intro _ hmem
    rw [FSEntries.toList] at hmem
    exact absurd hmem (List.not_mem_nil _)
  | .cons n t rest, name, tr => by
    intro hnd hmem
    rw [FSEntries.toList] at hmem
    have hnd3 : (n :: rest.toList.map (fun e => e.1)).Nodup := by
      rw [FSEntries.toList, List.map_cons] at hnd
      exact hnd
    have hnd2 := List.nodup_cons.mp hnd3
    rcases List.mem_cons.mp hmem with heq | hin
    · have h1 : name = n := congrArg Prod.fst heq
      have h2 : tr = t := congrArg Prod.snd heq
      subst h1
      subst h2
      rw [FSEntries.findName, if_pos (by simp)]
    · have hne : n ≠ name := by
        intro hx
        exact hnd2.1 (hx ▸ List.mem_map_of_mem (fun e => e.1) hin)
      rw [FSEntries.findName, if_neg (by simp [hne])]
      exact findName_nodup rest name tr hnd2.2 hin

theorem getComicPages_length (t : FSTree) :
    (getComicPages t).length = (scanImagesRecursive t).length := by
  simp only [getComicPages]
  rw [List.length_map, List.enum_length, length_sortBy]

theorem getComicPagesAt_entry {fs : FSTree} {root : List String} {entries : FSEntries}
    (hroot : lookupFS fs root = some (FSTree.dir entries))
    {name : String} {tr : FSEntries}
    (hnd : (entries.toList.map (fun e => e.1)).Nodup)
    (hmem : (name, FSTree.dir tr) ∈ entries.toList) :
    getComicPagesAt fs (root ++ [name]) = getComicPages (FSTree.dir tr) := by
  rw [getComicPagesAt, lookupFS_append [name] root fs, hroot]
  show (match lookupFS (FSTree.dir entries) [name] with
    | some t => getComicPages t
    | none => []) = _
  have hlook : lookupFS (FSTree.dir entries) [name] = some (FSTree.dir tr) := by
    show (match entries.findName name with
      | some t2 => lookupFS t2 []
      | none => none) = _
    rw [findName_nodup entries name (FSTree.dir tr) hnd hmem]
    rfl
  rw [hlook]

/-- C6: after the initial full scan, getComic at encodeId(name) holds a
record whose pageCount is the number of allow-listed images found by the
recursive descent, for every immediate subdirectory with at least one
image; it is absent for subdirectories with zero images; and after an
unlinkDir event for a name, getComic at encodeId(name) is absent. -/
theorem claim_C6 (hmac : String → String) (now : Int) (fs : FSTree) (comicsDir : String)
    (entries : FSEntries)
    (hroot : lookupFS fs (normSegs comicsDir) = some (FSTree.dir entries))
    (hnodup : (entries.toList.map (fun e => e.1)).Nodup) :
    (∀ (name : String) (tr : FSEntries),
      (name, FSTree.dir tr) ∈ entries.toList → validSeg name = true →
      0 < (scanImagesRecursive (FSTree.dir tr)).length →
      ∃ ci, getComic (initScanner hmac now fs comicsDir) (encodeId name) = some ci ∧
        ci.pageCount = (scanImagesRecursive (FSTree.dir tr)).length ∧ ci.name = name)
    ∧ (∀ (name : String) (tr : FSEntries),
        (name, FSTree.dir tr) ∈ entries.toList → validSeg name = true →
        (scanImagesRecursive (FSTree.dir tr)).length = 0 →
        getComic (initScanner hmac now fs comicsDir) (encodeId name) = none)
    ∧ (∀ (st : ScanState) (name : String),
        getComic (applyUnlinkDir st name) (encodeId name) = none) := by
  have hinit : ∀ key, getComic (initScanner hmac now fs comicsDir) key =
      jsMapGet (entries.toList.foldl (initStep hmac now fs comicsDir) []) key := by
    intro key
    simp only [initScanner, hroot]
    rfl
  have hpages : ∀ (name : String) (tr : FSEntries),
      (name, FSTree.dir tr) ∈ entries.toList → validSeg name = true →
      getComicPagesAt fs (normJoin comicsDir name) = getComicPages (FSTree.dir tr) := by
    intro name tr hmem hvalid
    rw [normJoin_valid hvalid]
    exact getComicPagesAt_entry hroot hnodup hmem
  have hfold : ∀ (name : String) (tr : FSEntries), (name, FSTree.dir tr) ∈ entries.toList →
      getComic (initScanner hmac now fs comicsDir) (encodeId name) =
        scanSingleComic hmac now fs comicsDir name := by
    intro name tr hmem
    rw [hinit]
    exact foldl_initStep_found entries.toList [] name tr hmem hnodup rfl
  refine ⟨?_, ?_, fun st name => getComic_unlink st name⟩
  · intro name tr hmem hvalid hpos
    have hscan : scanSingleComic hmac now fs comicsDir name = some {
        id := encodeId name, name := name, path := name,
        pageCount := (getComicPagesAt fs (normJoin comicsDir name)).length,
        cover := generateSignedCoverUrl hmac now (encodeId name) 31536000 } := by
      simp only [scanSingleComic]
      rw [if_pos (by rw [hpages name tr hmem hvalid, getComicPages_length]; exact hpos)]
    refine ⟨_, by rw [hfold name tr hmem, hscan], ?_, rfl⟩
    show (getComicPagesAt fs (normJoin comicsDir name)).length = _
    rw [hpages name tr hmem hvalid, getComicPages_length]
  · intro name tr hmem hvalid hzero
    rw [hfold name tr hmem]
    simp only [scanSingleComic]
    rw [if_neg (by rw [hpages name tr hmem hvalid, getComicPages_length, hzero]; simp)]

theorem claim_C6_witness :
    (∃ ci, getComic (initScanner demoMac 0 fsDemo "/opt/comics") (encodeId "Book") = some ci ∧
      ci.pageCount =
        (scanImagesRecursive (FSTree.dir (FSEntries.ofList [("1.jpg", FSTree.file)]))).length ∧
      ci.name = "Book") ∧
    getComic (applyUnlinkDir stDemo "Book") (encodeId "Book") = none := by
  have h := claim_C6 demoMac 0 fsDemo "/opt/comics"
    (FSEntries.ofList [("Book", FSTree.dir (FSEntries.ofList [("1.jpg", FSTree.file)]))])
    rfl (by decide)
  exact ⟨h.1 "Book" (FSEntries.ofList [("1.jpg", FSTree.file)])
    (List.mem_singleton.mpr rfl) (by decide) (by decide), h.2.2 stDemo "Book"⟩

/-- Two-digit comic folder names c01 .. c25. -/
def comicName (i : Nat) : String := "c" ++ (if i < 10 then "0" else "") ++ String.mk (natDec i)

/-- A library of 25 comic folders, each with one page. -/
def fs25 : FSTree :=
  .dir (FSEntries.ofList [("library", .dir (FSEntries.ofList
    ((List.range 25).map (fun i =>
      (comicName (i + 1), FSTree.dir (FSEntries.ofList [("1.jpg", FSTree.file)]))))))])

/-- The index after scanning the 25-comic library. -/
def st25 : ScanState := initScanner demoMac 0 fs25 "/library"

/-- C7: at every state reachable through the mutation entry points, the
cached sequence is the natural-sorted projection of the map values, and
getComics slices it with total equal to the map size; on 25 comics, page
2 with limit 10 yields entries 10 through 19 (names c11 .. c20) and
total 25. -/
theorem claim_C7 (hmac : String → String) (comicsDir : String) :
    (∀ st : ScanState, Reachable hmac comicsDir st →
      st.cache = sortComics (jsMapValues st.map) ∧
      ∀ page limit : Nat, getComics st page limit =
        ((st.cache.drop ((page - 1) * limit)).take limit, st.map.length))
    ∧ ((getComics st25 2 10).1.map (fun c => c.name) =
        ["c11", "c12", "c13", "c14", "c15", "c16", "c17", "c18", "c19", "c20"] ∧
       (getComics st25 2 10).2 = 25) := by
  constructor
  · intro st h
    have hc := reachable_cache_sorted h
    refine ⟨hc, ?_⟩
    intro page limit
    rw [getComics]
    have hlen : st.cache.length = st.map.length := by
      rw [hc, sortComics, length_sortBy, jsMapValues, List.length_map]
    rw [hlen]
  · exact ⟨by decide, by decide⟩

theorem claim_C7_witness :
    Reachable demoMac "/library" st25 ∧
    (st25.cache = sortComics (jsMapValues st25.map) ∧
      getComics st25 2 10 = ((st25.cache.drop ((2 - 1) * 10)).take 10, st25.map.length)) := by
  have hr : Reachable demoMac "/library" st25 := Reachable.init 0 fs25
  have h := (claim_C7 demoMac "/library").1 st25 hr
  exact ⟨hr, h.1, h.2 2 10⟩

end Tachyon
